import Mathlib

/-!
Verification of the steganographic encoder pipeline of
`src/functions/v2/UnifiedEmbeddingV3.js` (the V3 variant with the
iterative multi-angle selector).

Modelling conventions:
* A JavaScript string is a list of UTF-16 code units (`JStr := List Nat`,
  each unit `< 2 ^ 16` for real strings).
* Bit strings (the wire format uses ASCII '0'/'1' characters) are `List Bool`.
* `Math.ceil(Math.log2 _)` is modelled exactly on naturals (structural
  definitions below, related to `Nat.clog` by lemmas).
* Fallible or unboundedly looping code is given fuel, together with
  fuel-irrelevance lemmas where termination matters.
-/

/-- A JavaScript string: its list of UTF-16 code units. -/
abbrev JStr := List Nat

/-- `MAX_LITERAL_LEN` from the CONFIG section. -/
def MAX_LITERAL_LEN : Nat := 250

/-- `takeBits(bits, count)` — safe bit slice with padding.
Returns `(bitsUsed, remaining, insufficient)`. -/
def takeBits (bits : List Bool) (count : Nat) : List Bool × List Bool × Bool :=
  if count = 0 then ([], bits, false)
  else if count ≤ bits.length then (bits.take count, bits.drop count, false)
  else (bits ++ List.replicate (count - bits.length) false, [], true)

/-- `parseInt(s, 2)` on a '0'/'1' string (big-endian), with
`parseInt("" || "0") = 0`: the value of a bit list. -/
def bitsToNat (bits : List Bool) : Nat :=
  bits.foldl (fun a b => 2 * a + (if b then 1 else 0)) 0

/-- Fuel-driven big-endian binary representation, `n.toString(2)` character
by character.  `natToBinAux fuel n` is correct whenever `n < fuel`. -/
def natToBinAux : Nat → Nat → List Bool
  | 0, _ => []
  | fuel + 1, n =>
    if n ≤ 1 then [decide (n = 1)]
    else natToBinAux fuel (n / 2) ++ [decide (n % 2 = 1)]

/-- `n.toString(2)` as a bit list (so `natToBin 0 = [false]`). -/
def natToBin (n : Nat) : List Bool := natToBinAux (n + 1) n

/-- `getBitWidth(max)`: `max <= 1 ? 1 : Math.ceil(Math.log2(max + 1))`.
For `max ≥ 2`, `⌈log₂(max+1)⌉` is the length of `max`'s binary
representation (see `getBitWidth_eq_clog`). -/
def getBitWidth (max : Nat) : Nat :=
  if max ≤ 1 then 1 else (natToBin max).length

/-- Bare `Math.ceil(Math.log2 r)` used by the angle selector
(see `ceilLog2_eq_clog`). -/
def ceilLog2 (r : Nat) : Nat :=
  if r ≤ 1 then 0 else (natToBin (r - 1)).length

/-- `encodeInt(n, max)`: `n.toString(2).padStart(getBitWidth(max), "0")`. -/
def encodeInt (n max : Nat) : List Bool :=
  List.replicate (getBitWidth max - (natToBin n).length) false ++ natToBin n

/-! ## UTF-8 bit codec (`toBinaryUtf8`, `getUtf8ByteLength`) -/

/-- Leading (high) surrogate test. -/
def isHiSurr (u : Nat) : Prop := 0xd800 ≤ u ∧ u ≤ 0xdbff

/-- Trailing (low) surrogate test. -/
def isLoSurr (u : Nat) : Prop := 0xdc00 ≤ u ∧ u ≤ 0xdfff

instance : DecidablePred isHiSurr := fun u => by unfold isHiSurr; infer_instance
instance : DecidablePred isLoSurr := fun u => by unfold isLoSurr; infer_instance

/-- `String.prototype.codePointAt` on a surrogate pair. -/
def combineSurr (u v : Nat) : Nat :=
  (u - 0xd800) * 0x400 + (v - 0xdc00) + 0x10000

/-- The UTF-8 byte sequence the source writes for one code point. -/
def utf8Bytes (cp : Nat) : List Nat :=
  if cp ≤ 0x7f then [cp]
  else if cp ≤ 0x7ff then
    [0xc0 ||| (cp >>> 6), 0x80 ||| (cp &&& 0x3f)]
  else if cp ≤ 0xffff then
    [0xe0 ||| (cp >>> 12), 0x80 ||| ((cp >>> 6) &&& 0x3f), 0x80 ||| (cp &&& 0x3f)]
  else
    [0xf0 ||| (cp >>> 18), 0x80 ||| ((cp >>> 12) &&& 0x3f),
     0x80 ||| ((cp >>> 6) &&& 0x3f), 0x80 ||| (cp &&& 0x3f)]

/-- UTF-8 byte count of one code point (the branch structure of
`getUtf8ByteLength`). -/
def cpByteLen (cp : Nat) : Nat :=
  if cp ≤ 0x7f then 1 else if cp ≤ 0x7ff then 2 else if cp ≤ 0xffff then 3 else 4

/-- `b.toString(2).padStart(8, "0")` for one byte. -/
def byteBits (b : Nat) : List Bool :=
  List.replicate (8 - (natToBin b).length) false ++ natToBin b

/-- All bits of one code point. -/
def cpBits (cp : Nat) : List Bool := (utf8Bytes cp).flatMap byteBits

/-- `toBinaryUtf8(str)`: big-endian bits of the UTF-8 bytes of the string,
iterating with `codePointAt` and skipping the trailing surrogate of a pair. -/
def toBinaryUtf8 : JStr → List Bool
  | [] => []
  | [u] => cpBits u
  | u :: v :: vs =>
    if isHiSurr u ∧ isLoSurr v then cpBits (combineSurr u v) ++ toBinaryUtf8 vs
    else cpBits u ++ toBinaryUtf8 (v :: vs)
termination_by s => s.length
decreasing_by all_goals (simp; try omega)

/-- `getUtf8ByteLength(str)`: same iteration, summing byte counts. -/
def getUtf8ByteLength : JStr → Nat
  | [] => 0
  | [u] => cpByteLen u
  | u :: v :: vs =>
    if isHiSurr u ∧ isLoSurr v then cpByteLen (combineSurr u v) + getUtf8ByteLength vs
    else cpByteLen u + getUtf8ByteLength (v :: vs)
termination_by s => s.length
decreasing_by all_goals (simp; try omega)

/-! ## Reference decoder primitives (modelled from the spec, §4.5/§8:
the decoder itself is not part of `src/`; only the encoder is). -/

/-- Modelled from the spec: read one 8-bit byte off the bitstream. -/
def readByte (bits : List Bool) : Option (Nat × List Bool) :=
  if 8 ≤ bits.length then some (bitsToNat (bits.take 8), bits.drop 8) else none

/-- Modelled from the spec: decode one UTF-8 code point (inverse of
`utf8Bytes`/`cpBits`). -/
def decodeOneCp (bits : List Bool) : Option (Nat × List Bool) :=
  match readByte bits with
  | none => none
  | some (b1, r1) =>
    if b1 < 0x80 then some (b1, r1)
    else if b1 < 0xe0 then
      match readByte r1 with
      | none => none
      | some (b2, r2) => some ((b1 % 0x20) * 0x40 + b2 % 0x40, r2)
    else if b1 < 0xf0 then
      match readByte r1 with
      | none => none
      | some (b2, r2) =>
        match readByte r2 with
        | none => none
        | some (b3, r3) =>
          some ((b1 % 0x10) * 0x1000 + (b2 % 0x40) * 0x40 + b3 % 0x40, r3)
    else
      match readByte r1 with
      | none => none
      | some (b2, r2) =>
        match readByte r2 with
        | none => none
        | some (b3, r3) =>
          match readByte r3 with
          | none => none
          | some (b4, r4) =>
            some ((b1 % 8) * 0x40000 + (b2 % 0x40) * 0x1000 +
                  (b3 % 0x40) * 0x40 + b4 % 0x40, r4)

/-- Modelled from the spec: a decoded code point back to UTF-16 units. -/
def cpToUnits (cp : Nat) : JStr :=
  if cp ≤ 0xffff then [cp]
  else [0xd800 + (cp - 0x10000) / 0x400, 0xdc00 + (cp - 0x10000) % 0x400]

/-- Modelled from the spec: decode code points until the bits run out
(mode "0" body).  Fuel decreases every code point. -/
def decodeUtf8Run : Nat → List Bool → JStr
  | 0, _ => []
  | fuel + 1, bits =>
    match decodeOneCp bits with
    | none => []
    | some (cp, rest) => cpToUnits cp ++ decodeUtf8Run fuel rest

/-- Modelled from the spec: decode exactly `need` UTF-16 code units
(the payload text of a literal token).  Fuel decreases every code point. -/
def decodeUnits : Nat → Nat → List Bool → JStr × List Bool
  | _, 0, bits => ([], bits)
  | 0, _ + 1, bits => ([], bits)
  | fuel + 1, need + 1, bits =>
    match decodeOneCp bits with
    | none => ([], bits)
    | some (cp, rest) =>
      let us := cpToUnits cp
      let next := decodeUnits fuel (need + 1 - us.length) rest
      (us ++ next.1, next.2)

/-! ## Dictionary, match index, DP compressor (`compressPayload`) -/

/-- The `GLOBAL_MAX_MATCH` loop: largest entry length in the dictionary. -/
def maxDictLen (dict : List JStr) : Nat :=
  dict.foldl (fun m s => if m < s.length then s.length else m) 0

/-- The ascending `indexOf` scan: all offsets `s` in `txt` with
`txt[s] === char`. -/
def occList (txt : JStr) (char : Nat) : List Nat :=
  (List.range txt.length).filter (fun s => txt.getD s 0 = char)

/-- The inner `while` extension: grow `ml` while `ml < bound` and
`payload[i+ml] === txt[s+ml]`.  Called with `fuel = bound`. -/
def growLen (p txt : JStr) (i s bound : Nat) : Nat → Nat → Nat
  | 0, ml => ml
  | fuel + 1, ml =>
    if ml < bound ∧ p.getD (i + ml) 0 = txt.getD (s + ml) 0 then
      growLen p txt i s bound fuel (ml + 1)
    else ml

/-- One candidate back-reference. -/
structure MatchRef where
  doc : Nat
  idx : Nat
  len : Nat
deriving DecidableEq, Repr

/-- The precomputed `matches.get(i)` list: for every dictionary entry and
every occurrence of `payload[i]`, the greedy extension, kept when `> 2`. -/
def matchesAt (p : JStr) (dict : List JStr) (gmm i : Nat) : List MatchRef :=
  (List.range dict.length).flatMap fun j =>
    let txt := dict.getD j []
    (occList txt (p.getD i 0)).flatMap fun s =>
      let bound := min gmm (min (p.length - i) (txt.length - s))
      let ml := growLen p txt i s bound bound 1
      if 2 < ml then [⟨j, s, ml⟩] else []

/-- `choice[i]`: the token the DP selects at a position.  A literal caches
its `subStr` exactly as the source does. -/
inductive Ch where
  | lit (len : Nat) (sub : JStr)
  | ref (doc idx len : Nat)
deriving DecidableEq, Repr

/-- Length field of a choice (`ch.len`). -/
def Ch.len : Ch → Nat
  | .lit L _ => L
  | .ref _ _ L => L

/-- The `cost < dp[i]` fold: starting from `dp[i] = Infinity`, each strictly
cheaper candidate replaces the current one, so the first candidate attaining
the minimum wins. -/
def pickBest (cands : List (Nat × Ch)) : Option (Nat × Ch) :=
  cands.foldl
    (fun acc c =>
      match acc with
      | none => some c
      | some a => if c.1 < a.1 then some c else some a)
    none

/-- Literal candidates at the position with `k1 = n - i` characters left:
`L = 1 .. min MAX_LITERAL_LEN k1`, cost
`1 + BIT_WIDTH_LITERAL_LEN + byteLen*8 + dp[i+L]` (the `dp` read is
`prev.getD (L-1)`, see `dpTable`). -/
def litCandsAt (p : JStr) (prev : List (Nat × Option Ch)) (i k1 : Nat) :
    List (Nat × Ch) :=
  (List.range (min MAX_LITERAL_LEN k1)).map fun L0 =>
    let L := L0 + 1
    let sub := (p.drop i).take L
    (1 + getBitWidth MAX_LITERAL_LEN + getUtf8ByteLength sub * 8 +
       (prev.getD (L - 1) (0, none)).1,
     Ch.lit L sub)

/-- Reference candidates at a position, cost
`1 + BIT_WIDTH_DICT_IDX + docLenBits + BIT_WIDTH_MATCH_LEN + dp[i+len]`. -/
def refCandsAt (p : JStr) (dict : List JStr) (prev : List (Nat × Option Ch))
    (gmm i : Nat) : List (Nat × Ch) :=
  (matchesAt p dict gmm i).map fun m =>
    (1 + getBitWidth dict.length + getBitWidth (dict.getD m.doc []).length +
       getBitWidth gmm + (prev.getD (m.len - 1) (0, none)).1,
     Ch.ref m.doc m.idx m.len)

/-- All candidates the `i`-loop body tries at one position, in source
order: literals `L = 1..maxL`, then the match list. -/
def candsAt (p : JStr) (dict : List JStr) (prev : List (Nat × Option Ch))
    (k1 : Nat) : List (Nat × Ch) :=
  litCandsAt p prev (p.length - k1) k1 ++
    refCandsAt p dict prev (maxDictLen dict) (p.length - k1)

/-- The `(dp[i], choice[i])` pair computed by one `i`-loop iteration. -/
def dpEntry (p : JStr) (dict : List JStr) (prev : List (Nat × Option Ch))
    (k1 : Nat) : Nat × Option Ch :=
  match pickBest (candsAt p dict prev k1) with
  | some (c, ch) => (c, some ch)
  | none => (0, none)

/-- The DP table, built from the terminal `dp[n] = 0` backwards.
`dpTable p dict k` lists the `(dp, choice)` pairs for the positions with
`k, k-1, …, 0` characters remaining (head = `k` remaining). -/
def dpTable (p : JStr) (dict : List JStr) : Nat → List (Nat × Option Ch)
  | 0 => [(0, none)]
  | k + 1 => dpEntry p dict (dpTable p dict k) (k + 1) :: dpTable p dict k

/-- `dp[i]` as a function of the number `k` of remaining characters. -/
def dpCost (p : JStr) (dict : List JStr) (k : Nat) : Nat :=
  ((dpTable p dict k).headD (0, none)).1

/-- `choice[i]` as a function of the number of remaining characters. -/
def choiceAt (p : JStr) (dict : List JStr) (k : Nat) : Option Ch :=
  ((dpTable p dict k).headD (0, none)).2

/-- One `references` entry of the output record. -/
structure Reference where
  doc : Option Nat
  idx : Nat
  len : Nat
deriving DecidableEq, Repr

/-- The reconstruction walk: from `currI = i`, emit the chosen token's bits
and reference entry and advance by `safeLen = Math.max(1, ch.len || 1)`
(the `choice[currI] ||` fallback is the length-1 literal). -/
def emitFrom (p : JStr) (dict : List JStr) (i : Nat) :
    List Bool × List Reference :=
  if h : i < p.length then
    let ch := (choiceAt p dict (p.length - i)).getD
      (Ch.lit 1 [p.getD i 0])
    let safeLen := max 1 ch.len
    let rest := emitFrom p dict (i + safeLen)
    match ch with
    | Ch.lit _ sub =>
      let bin := toBinaryUtf8 (if sub.isEmpty then (p.drop i).take safeLen else sub)
      (false :: (encodeInt safeLen MAX_LITERAL_LEN ++ bin) ++ rest.1,
       ⟨none, i, safeLen⟩ :: rest.2)
    | Ch.ref d idx _ =>
      (true :: (encodeInt d dict.length ++
         encodeInt idx (dict.getD d []).length ++
         encodeInt safeLen (maxDictLen dict)) ++ rest.1,
       ⟨some d, idx, safeLen⟩ :: rest.2)
  else ([], [])
termination_by p.length - i
decreasing_by omega

/-- The output record of `compressPayload` (the floating-point `ratio`
field is omitted; no claim concerns it). -/
structure CompressionResult where
  method : String
  payload : JStr
  compressed : List Bool
  compressedLength : Nat
  originalLength : Nat
  references : List Reference
deriving Repr

/-- `compressPayload(payload, dictionary)`. -/
def compressPayload (p : JStr) (dict : List JStr) : CompressionResult :=
  let stdBinary := toBinaryUtf8 p
  let stdLength := 1 + stdBinary.length
  let emitted := emitFrom p dict 0
  let dictBinary := emitted.1
  let dictLength := 1 + dictBinary.length
  if stdLength ≤ dictLength then
    { method := "standard", payload := p, compressed := false :: stdBinary,
      compressedLength := stdLength, originalLength := stdBinary.length,
      references := [] }
  else
    { method := "dictionary", payload := p, compressed := true :: dictBinary,
      compressedLength := dictLength, originalLength := stdBinary.length,
      references := emitted.2 }

/-! ## Comment forest, flattening, parent resolution, chain walk -/

/-- The fields of one comment node used by the embedder.  Ids are JS
strings (`JStr`), since the tolerant parent lookup splits them on `'_'`
(code unit 95). -/
structure CommentData where
  id : JStr
  parent_id : JStr
  link_id : JStr
  author : String
  body : JStr
  permalink : String
deriving DecidableEq, Repr, Inhabited

/-- A comment with its `replies` list. -/
inductive CommentTree where
  | node (data : CommentData) (replies : List CommentTree)
deriving Repr

mutual

/-- `flatten(c)`: the comment followed by its flattened replies. -/
def flattenTree : CommentTree → List CommentData
  | .node d rs => d :: flattenForest rs

/-- `flattenComments`: depth-first pre-order, node before its replies. -/
def flattenForest : List CommentTree → List CommentData
  | [] => []
  | t :: ts => flattenTree t ++ flattenForest ts

end

/-- `commentMap.get(k)` where the map was filled by iterating the
flattened list with `set(c.id, c)` — the last comment with a given id
wins. -/
def mapGet (flat : List CommentData) (k : JStr) : Option CommentData :=
  flat.reverse.find? (fun c => c.id = k)

/-- `parent_id.split('_')` (split on code unit 95). -/
def splitUnd : JStr → List JStr
  | [] => [[]]
  | u :: rest =>
    let r := splitUnd rest
    if u = 95 then [] :: r else (u :: r.headD []) :: r.tail

/-- `parent_id.split('_').pop()`: the suffix after the last underscore. -/
def lastSeg (s : JStr) : JStr := (splitUnd s).getLastD s

/-- The parent lookup with the `FIX` fallback: direct id lookup, then the
suffix after the last underscore when the id contains one. -/
def resolveParent (flat : List CommentData) (pid : JStr) : Option CommentData :=
  match mapGet flat pid with
  | some parent => some parent
  | none => if 95 ∈ pid then mapGet flat (lastSeg pid) else none

/-- One projected entry of `pickedCommentChain`. -/
structure ChainEntry where
  name : String
  body : JStr
  id : JStr
  parent_id : JStr
  permalink : String
deriving DecidableEq, Repr

/-- `{ name: current.author || "Unknown", … }`. -/
def projEntry (c : CommentData) : ChainEntry :=
  { name := if c.author = "" then "Unknown" else c.author
    body := c.body
    id := c.id
    parent_id := c.parent_id
    permalink := c.permalink }

/-- The ancestor-chain `while` loop, guarded by the visited-id set.
`unshift` is modelled by appending the current entry after the parent's
chain.  The JS reference comparison `parent === current` is modelled by
value equality, which produces the same chain (a value-equal but distinct
parent would be stopped by the visited check one step later, before
adding anything). -/
def walkChain (flat : List CommentData) :
    Nat → CommentData → List JStr → List ChainEntry
  | 0, _, _ => []
  | fuel + 1, current, visited =>
    if current.id ∈ visited then []
    else if current.parent_id = current.link_id then [projEntry current]
    else
      match resolveParent flat current.parent_id with
      | none => [projEntry current]
      | some parent =>
        if parent = current then [projEntry current]
        else walkChain flat fuel parent (current.id :: visited) ++
          [projEntry current]

/-! ## Comment selector (`embedInCommentSelection`) -/

/-- The post fields the embedder reads. -/
structure Post where
  id : String
  title : String
  author : String
  permalink : String
  selftext : JStr
  search_results : List JStr
  comments : List CommentTree

/-- The projected post context of the output record. -/
structure PostContext where
  id : String
  title : String
  author : String
  permalink : String
deriving DecidableEq, Repr

/-- The `result` record of `embedInCommentSelection`. -/
structure CommentEmbResult where
  bitsUsed : List Bool
  bitsCount : Nat
  targetType : String
  context : PostContext
  pickedCommentChain : List ChainEntry
  insufficientBits : Bool
deriving Repr

/-- `embedInCommentSelection(bits, post)`; returns the result record and
the remaining bits.  The chain walk gets fuel `|F| + 1`, which the
termination theorem shows is enough. -/
def embedInCommentSelection (bits : List Bool) (post : Post) :
    CommentEmbResult × List Bool :=
  let flat := flattenForest post.comments
  let n := flat.length
  let bitsCount := getBitWidth n
  let t := takeBits bits bitsCount
  let s := bitsToNat t.1
  let selectionIndex := if n < s then s % (n + 1) else s
  let chain :=
    if 0 < selectionIndex ∧ 0 < n then
      walkChain flat (n + 1) (flat.getD (selectionIndex - 1) default) []
    else []
  ({ bitsUsed := t.1
     bitsCount := bitsCount
     targetType := if selectionIndex = 0 then "post" else "comment"
     context := ⟨post.id, post.title, post.author, post.permalink⟩
     pickedCommentChain := chain
     insufficientBits := t.2.2 },
   t.2.1)

/-! ## Angle selector (`embedInAngleSelection`, V3 multi-select) -/

/-- The output record of `embedInAngleSelection`. -/
structure AngleEmbResult (α : Type) where
  bitsUsed : List Bool
  bitsCount : Nat
  remainingBits : List Bool
  selectedAngles : List α
  unselectedAngles : List α
  insufficientBits : Bool
deriving Repr

/-- The selection `while` loop: runs while `selectedAngles.length <
targetCount && availableAngles.length > 0`; the remaining quota
`targetCount - selectedAngles.length` is the recursion counter. -/
def angleGo {α : Type} [Inhabited α] :
    List α → List Bool → Nat → AngleEmbResult α
  | avail, bits, 0 =>
    { bitsUsed := [], bitsCount := 0, remainingBits := bits,
      selectedAngles := [], unselectedAngles := avail,
      insufficientBits := false }
  | avail, bits, quota + 1 =>
    if avail.isEmpty then
      { bitsUsed := [], bitsCount := 0, remainingBits := bits,
        selectedAngles := [], unselectedAngles := avail,
        insufficientBits := false }
    else
      let range := avail.length
      let bitsNeeded := ceilLog2 range
      let t := takeBits bits bitsNeeded
      let v := bitsToNat t.1
      let idx := if range ≤ v then v % range else v
      let rest := angleGo (avail.eraseIdx idx) t.2.1 quota
      { bitsUsed := t.1 ++ rest.bitsUsed
        bitsCount := bitsNeeded + rest.bitsCount
        remainingBits := rest.remainingBits
        selectedAngles := avail.getD idx default :: rest.selectedAngles
        unselectedAngles := rest.unselectedAngles
        insufficientBits := t.2.2 || rest.insufficientBits }

/-- `embedInAngleSelection(bits, nestedAngles, targetCount)`.  A `null`
target behaves exactly like `0` in the loop guard (`length < null` is
`length < 0` in JS), so the target is a plain natural number. -/
def embedInAngleSelection {α : Type} [Inhabited α] (bits : List Bool)
    (nestedAngles : List (List α)) (targetCount : Nat) : AngleEmbResult α :=
  angleGo (nestedAngles.flatMap id) bits targetCount

/-! ## Dictionary builder and pipeline coordinator (MAIN) -/

/-- `buildDictionary(scrapeData)`: `[selftext, ...search_results,
...flattenedComments.map(c => c.body)].filter(isNonEmptyString)`. -/
def buildDictionary (post : Post) : List JStr :=
  ((post.selftext :: post.search_results) ++
    (flattenForest post.comments).map (fun c => c.body)).filter
    (fun s => ¬s.isEmpty)

/-- An editorial angle (only identity matters to the selectors). -/
structure Angle where
  source_quote : String
  tangent : String
  category : String
deriving DecidableEq, Repr, Inhabited

/-- The per-item output record assembled by MAIN. -/
structure EmbedOutput where
  compression : CompressionResult
  commentEmbedding : CommentEmbResult
  angleEmbedding : AngleEmbResult Angle
  totalBitsEmbedded : Nat
  fullEncodedBits : List Bool
  warnings : List String

/-- The MAIN per-item body after payload validation: build the dictionary,
compress, comment-select on the full bitstream, angle-select on the
leftover, and accumulate the warnings in source order. -/
def processItem (post : Post) (nestedAngles : List (List Angle))
    (payload : JStr) (targetCount : Nat) : EmbedOutput :=
  let dictionary := buildDictionary post
  let compression := compressPayload payload dictionary
  let w1 := if compression.method = "standard" then
    ["Dictionary compression inefficient; used standard encoding."] else []
  let ce := embedInCommentSelection compression.compressed post
  let w2 := if ce.1.insufficientBits then
    ["Padding used in Comment Selection."] else []
  let ae := embedInAngleSelection ce.2 nestedAngles targetCount
  let w3 := if ae.insufficientBits then
    ["Padding used in Angle Selection."] else []
  let w4 := if 0 < ae.remainingBits.length then
    ["Data truncated: " ++ toString ae.remainingBits.length ++
      " bits could not be embedded (Limit of " ++
      (if targetCount = 0 then "available" else toString targetCount) ++
      " angles reached)."] else []
  { compression := compression
    commentEmbedding := ce.1
    angleEmbedding := ae
    totalBitsEmbedded := ce.1.bitsCount + ae.bitsCount
    fullEncodedBits := ce.1.bitsUsed ++ ae.bitsUsed
    warnings := w1 ++ w2 ++ w3 ++ w4 }

/-- MAIN including the payload validation step: an empty payload aborts
with `{ error, warnings }` only. -/
def runItem (post : Post) (nestedAngles : List (List Angle))
    (payload : JStr) (targetCount : Nat) :
    Except (String × List String) EmbedOutput :=
  if payload.isEmpty then .error ("No payload", ["Invalid payload"])
  else .ok (processItem post nestedAngles payload targetCount)

/-! ## The mode-aware reference decoder -/

/-- Modelled from the spec (§4.5 Emission/§8.1; the decoder is not part of
`src/`, which only ships the encoder): token loop of mode "1".  A kind bit
selects literal or reference; fields are read with the declared widths
`width(MAX_LITERAL_LEN)`, `width(|D|)`, `width(|D[d]|)`, `width(M_global)`.
Fuel decreases every token. -/
def decodeTokens (dict : List JStr) (gmm : Nat) : Nat → List Bool → JStr
  | 0, _ => []
  | _ + 1, [] => []
  | fuel + 1, kind :: rest =>
    if kind then
      let w1 := getBitWidth dict.length
      let d := bitsToNat (rest.take w1)
      let r1 := rest.drop w1
      let txt := dict.getD d []
      let w2 := getBitWidth txt.length
      let o := bitsToNat (r1.take w2)
      let r2 := r1.drop w2
      let w3 := getBitWidth gmm
      let len := bitsToNat (r2.take w3)
      let r3 := r2.drop w3
      (txt.drop o).take len ++ decodeTokens dict gmm fuel r3
    else
      let w := getBitWidth MAX_LITERAL_LEN
      let len := bitsToNat (rest.take w)
      let r1 := rest.drop w
      let dec := decodeUnits len len r1
      dec.1 ++ decodeTokens dict gmm fuel dec.2

/-- Modelled from the spec (§3 Bitstream, §4.5): the mode-aware decoder —
peek the mode flag, then decode raw UTF-8 (mode "0") or the token stream
(mode "1") against the same dictionary. -/
def decodeBitstream (dict : List JStr) (bits : List Bool) : JStr :=
  match bits with
  | [] => []
  | mode :: rest =>
    if mode then decodeTokens dict (maxDictLen dict) rest.length rest
    else decodeUtf8Run rest.length rest

/-! ## Concrete fixtures (closed sample inputs) -/

/-- A top-level comment: its `parent_id` equals its `link_id`. -/
def sampleComment : CommentData :=
  { id := [97], parent_id := [112], link_id := [112], author := "a",
    body := [98, 99], permalink := "" }

/-- A comment whose `parent_id` is `t1_a` (code units 116, 49, 95, 97):
no flattened id matches it directly, but the suffix after the underscore
matches `sampleComment`. -/
def sampleChild : CommentData :=
  { id := [98], parent_id := [116, 49, 95, 97], link_id := [112],
    author := "b", body := [], permalink := "" }

/-- A post with a single top-level comment. -/
def samplePost : Post :=
  { id := "p", title := "t", author := "u", permalink := "l",
    selftext := [104], search_results := [],
    comments := [.node sampleComment []] }

/-- A post with no comments and no text sources. -/
def emptyPost : Post :=
  { id := "", title := "", author := "", permalink := "", selftext := [],
    search_results := [], comments := [] }

/-! ## Spec-side decompositions (for the DP-optimality claim) -/

/-- A token of a candidate decomposition: a literal run of `L` code units
or a back-reference drawn from the match index. -/
inductive SpecTok where
  | lit (L : Nat)
  | ref (m : MatchRef)
deriving DecidableEq, Repr

/-- A decomposition of `payload[i..]` into literal tokens of length
`1..MAX_LITERAL_LEN` and reference tokens drawn from the match index at
each position, covering the payload exactly. -/
def ValidFrom (p : JStr) (dict : List JStr) : Nat → List SpecTok → Prop
  | i, [] => i = p.length
  | i, .lit L :: ts =>
    1 ≤ L ∧ L ≤ MAX_LITERAL_LEN ∧ i + L ≤ p.length ∧
      ValidFrom p dict (i + L) ts
  | i, .ref m :: ts =>
    m ∈ matchesAt p dict (maxDictLen dict) i ∧ ValidFrom p dict (i + m.len) ts

/-- The summed token costs of a decomposition:
`1 + width(MAX_LITERAL_LEN) + 8·byte_length(text)` for a literal and
`1 + width(|D|) + width(|D[d]|) + width(M_global)` for a reference. -/
def costFrom (p : JStr) (dict : List JStr) : Nat → List SpecTok → Nat
  | _, [] => 0
  | i, .lit L :: ts =>
    (1 + getBitWidth MAX_LITERAL_LEN +
      8 * getUtf8ByteLength ((p.drop i).take L)) + costFrom p dict (i + L) ts
  | i, .ref m :: ts =>
    (1 + getBitWidth dict.length + getBitWidth (dict.getD m.doc []).length +
      getBitWidth (maxDictLen dict)) + costFrom p dict (i + m.len) ts

/-! # Theorems

First the arithmetic layer: binary representations, widths, `takeBits`. -/

theorem natToBinAux_irrel :
    ∀ f1 f2 n, n < f1 → n < f2 → natToBinAux f1 n = natToBinAux f2 n := by
  intro f1
  induction f1 with
  | zero => intro f2 n h1 _; omega
  | succ f ih =>
    intro f2 n h1 h2
    match f2 with
    | f2 + 1 =>
      simp only [natToBinAux]
      by_cases hn : n ≤ 1
      · simp [hn]
      · simp only [hn, if_false]
        rw [ih f2 (n / 2) (by omega) (by omega)]

theorem natToBin_of_le_one {n : Nat} (h : n ≤ 1) :
    natToBin n = [decide (n = 1)] := by
  simp [natToBin, natToBinAux, h]

theorem natToBinAux_succ (fuel n : Nat) :
    natToBinAux (fuel + 1) n =
      if n ≤ 1 then [decide (n = 1)]
      else natToBinAux fuel (n / 2) ++ [decide (n % 2 = 1)] := rfl

theorem natToBin_of_two_le {n : Nat} (h : 2 ≤ n) :
    natToBin n = natToBin (n / 2) ++ [decide (n % 2 = 1)] := by
  have h1 : ¬n ≤ 1 := by omega
  simp only [natToBin, natToBinAux_succ, h1, if_false]
  rw [natToBinAux_irrel n (n / 2 + 1) (n / 2) (by omega) (by omega),
    natToBinAux_succ]

theorem natToBin_length_pos (n : Nat) : 1 ≤ (natToBin n).length := by
  by_cases h : n ≤ 1
  · rw [natToBin_of_le_one h]; simp
  · rw [natToBin_of_two_le (by omega)]; simp

theorem bitsToNat_from (a : Nat) (l : List Bool) :
    l.foldl (fun a b => 2 * a + (if b then 1 else 0)) a =
      a * 2 ^ l.length + bitsToNat l := by
  induction l generalizing a with
  | nil => simp [bitsToNat]
  | cons b t ih =>
    simp only [List.foldl_cons, List.length_cons, bitsToNat]
    rw [ih, ih (2 * 0 + if b then 1 else 0)]
    ring

theorem bitsToNat_append (l1 l2 : List Bool) :
    bitsToNat (l1 ++ l2) = bitsToNat l1 * 2 ^ l2.length + bitsToNat l2 := by
  simp only [bitsToNat, List.foldl_append]
  rw [bitsToNat_from]
  rfl

theorem bitsToNat_replicate_false (k : Nat) (l : List Bool) :
    bitsToNat (List.replicate k false ++ l) = bitsToNat l := by
  rw [bitsToNat_append]
  have : bitsToNat (List.replicate k false) = 0 := by
    induction k with
    | zero => rfl
    | succ m ih => simpa [bitsToNat, List.replicate_succ] using ih
  simp [this]

theorem bitsToNat_natToBin : ∀ n, bitsToNat (natToBin n) = n := by
  intro n
  induction n using Nat.strong_induction_on with
  | _ n ih =>
    by_cases h : n ≤ 1
    · rw [natToBin_of_le_one h]
      interval_cases n <;> rfl
    · rw [natToBin_of_two_le (by omega), bitsToNat_append,
        ih (n / 2) (by omega)]
      rcases Nat.mod_two_eq_zero_or_one n with h2 | h2 <;>
        simp [h2, bitsToNat] <;> omega

theorem natToBin_lt (n : Nat) : n < 2 ^ (natToBin n).length := by
  induction n using Nat.strong_induction_on with
  | _ n ih =>
    by_cases h : n ≤ 1
    · rw [natToBin_of_le_one h]; simpa using by omega
    · rw [natToBin_of_two_le (by omega)]
      have := ih (n / 2) (by omega)
      simp only [List.length_append, List.length_cons, List.length_nil]
      rw [pow_succ]
      omega

theorem natToBin_pow_le {n : Nat} (h : 1 ≤ n) :
    2 ^ ((natToBin n).length - 1) ≤ n := by
  induction n using Nat.strong_induction_on with
  | _ n ih =>
    by_cases h1 : n ≤ 1
    · rw [natToBin_of_le_one h1]; simpa using by omega
    · rw [natToBin_of_two_le (by omega)]
      have hl := natToBin_length_pos (n / 2)
      have := ih (n / 2) (by omega) (by omega)
      simp only [List.length_append, List.length_cons, List.length_nil]
      have heq : (natToBin (n / 2)).length + 1 - 1 =
          ((natToBin (n / 2)).length - 1) + 1 := by omega
      rw [heq, pow_succ]
      omega

theorem natToBin_length_le : ∀ n k, n < 2 ^ k → 1 ≤ k →
    (natToBin n).length ≤ k := by
  intro n
  induction n using Nat.strong_induction_on with
  | _ n ih =>
    intro k hk h1
    by_cases h : n ≤ 1
    · rw [natToBin_of_le_one h]; simpa using h1
    · rw [natToBin_of_two_le (by omega)]
      have hk2 : 2 ≤ k := by
        by_contra hc
        have : k = 1 := by omega
        subst this
        simp at hk
        omega
      have hdiv : n / 2 < 2 ^ (k - 1) := by
        have : 2 ^ k = 2 * 2 ^ (k - 1) := by
          conv_lhs => rw [show k = (k - 1) + 1 by omega]
          rw [pow_succ]; ring
        omega
      have := ih (n / 2) (by omega) (k - 1) hdiv (by omega)
      simp only [List.length_append, List.length_cons, List.length_nil]
      omega

theorem getBitWidth_pos (max : Nat) : 1 ≤ getBitWidth max := by
  unfold getBitWidth
  split
  · exact le_refl 1
  · exact natToBin_length_pos max

theorem lt_two_pow_getBitWidth (max : Nat) : max < 2 ^ getBitWidth max := by
  unfold getBitWidth
  split
  · omega
  · exact natToBin_lt max

theorem natToBin_length_le_width {n max : Nat} (h : n ≤ max) :
    (natToBin n).length ≤ getBitWidth max := by
  by_cases h1 : max ≤ 1
  · rw [natToBin_of_le_one (by omega)]
    simpa using getBitWidth_pos max
  · have hw : getBitWidth max = (natToBin max).length := by
      simp [getBitWidth, h1]
    rw [hw]
    exact natToBin_length_le n _ (lt_of_le_of_lt h (natToBin_lt max))
      (natToBin_length_pos max)

theorem encodeInt_length {n max : Nat} (h : n ≤ max) :
    (encodeInt n max).length = getBitWidth max := by
  have := natToBin_length_le_width h
  simp only [encodeInt, List.length_append, List.length_replicate]
  omega

theorem bitsToNat_encodeInt (n max : Nat) :
    bitsToNat (encodeInt n max) = n := by
  rw [encodeInt, bitsToNat_replicate_false, bitsToNat_natToBin]

theorem getBitWidth_eq_clog {max : Nat} (h : 1 ≤ max) :
    getBitWidth max = Nat.clog 2 (max + 1) := by
  by_cases h1 : max ≤ 1
  · have : max = 1 := by omega
    subst this
    have hle : Nat.clog 2 2 ≤ 1 :=
      (Nat.le_pow_iff_clog_le (by norm_num)).1 (by norm_num)
    have hge : 1 ≤ Nat.clog 2 2 := by
      by_contra hc
      have h0 : Nat.clog 2 2 ≤ 0 := by omega
      have := (Nat.le_pow_iff_clog_le (b := 2) (by norm_num)).2 h0
      simp at this
    simp [getBitWidth]
    omega
  · have hw : getBitWidth max = (natToBin max).length := by
      simp [getBitWidth, h1]
    have hpos := natToBin_length_pos max
    apply Nat.le_antisymm
    · rw [hw]
      by_contra hc
      push_neg at hc
      have h2 : Nat.clog 2 (max + 1) ≤ (natToBin max).length - 1 := by omega
      have h3 : max + 1 ≤ 2 ^ ((natToBin max).length - 1) :=
        (Nat.le_pow_iff_clog_le (by norm_num)).2 h2
      have h4 := natToBin_pow_le (show 1 ≤ max by omega)
      omega
    · rw [hw]
      exact (Nat.le_pow_iff_clog_le (by norm_num)).1
        (by have := natToBin_lt max; omega)

theorem ceilLog2_eq_clog (r : Nat) : ceilLog2 r = Nat.clog 2 r := by
  by_cases h1 : r ≤ 1
  · interval_cases r
    · simp [ceilLog2, Nat.clog_zero_right]
    · simp [ceilLog2, Nat.clog_one_right]
  · have hw : ceilLog2 r = (natToBin (r - 1)).length := by
      simp [ceilLog2, h1]
    have hpos := natToBin_length_pos (r - 1)
    apply Nat.le_antisymm
    · rw [hw]
      by_contra hc
      push_neg at hc
      have h2 : Nat.clog 2 r ≤ (natToBin (r - 1)).length - 1 := by omega
      have h3 : r ≤ 2 ^ ((natToBin (r - 1)).length - 1) :=
        (Nat.le_pow_iff_clog_le (by norm_num)).2 h2
      have h4 := natToBin_pow_le (show 1 ≤ r - 1 by omega)
      omega
    · rw [hw]
      exact (Nat.le_pow_iff_clog_le (by norm_num)).1
        (by have := natToBin_lt (r - 1); omega)

theorem takeBits_used_length (b : List Bool) (k : Nat) :
    (takeBits b k).1.length = k := by
  unfold takeBits
  split
  · simpa using by omega
  · split <;> simp <;> omega

theorem takeBits_of_le {b : List Bool} {k : Nat} (h : k ≤ b.length) :
    takeBits b k = (b.take k, b.drop k, false) := by
  unfold takeBits
  split
  · subst ‹k = 0›; simp
  · simp [h]

theorem takeBits_of_lt {b : List Bool} {k : Nat} (h : b.length < k) :
    takeBits b k =
      (b ++ List.replicate (k - b.length) false, [], true) := by
  unfold takeBits
  split
  · omega
  · split
    · omega
    · rfl

theorem take_append_encodeInt (n max : Nat) (rest : List Bool)
    (h : n ≤ max) :
    (encodeInt n max ++ rest).take (getBitWidth max) = encodeInt n max ∧
      (encodeInt n max ++ rest).drop (getBitWidth max) = rest := by
  constructor
  · rw [← encodeInt_length h]
    exact List.take_left _ _
  · rw [← encodeInt_length h]
    exact List.drop_left _ _

/-! ## UTF-8 codec lemmas -/

theorem lor_c0 : ∀ x < 64, 0xc0 ||| x = 0xc0 + x := by decide

theorem lor_80 : ∀ x < 64, 0x80 ||| x = 0x80 + x := by decide

theorem lor_e0 : ∀ x < 16, 0xe0 ||| x = 0xe0 + x := by decide

theorem lor_f0 : ∀ x < 8, 0xf0 ||| x = 0xf0 + x := by decide

theorem shiftRight_six (cp : Nat) : cp >>> 6 = cp / 64 := by
  rw [Nat.shiftRight_eq_div_pow]

theorem shiftRight_twelve (cp : Nat) : cp >>> 12 = cp / 4096 := by
  rw [Nat.shiftRight_eq_div_pow]

theorem shiftRight_eighteen (cp : Nat) : cp >>> 18 = cp / 262144 := by
  rw [Nat.shiftRight_eq_div_pow]

theorem and_3f (cp : Nat) : cp &&& 0x3f = cp % 64 := by
  have h := Nat.and_pow_two_sub_one_eq_mod cp 6
  norm_num at h
  exact h

theorem utf8Bytes_one {cp : Nat} (h : cp ≤ 0x7f) : utf8Bytes cp = [cp] := by
  simp [utf8Bytes, h]

theorem utf8Bytes_two {cp : Nat} (h1 : 0x80 ≤ cp) (h2 : cp ≤ 0x7ff) :
    utf8Bytes cp = [0xc0 + cp / 64, 0x80 + cp % 64] := by
  have hx : ¬cp ≤ 0x7f := by omega
  simp only [utf8Bytes, hx, if_false, h2, if_true]
  rw [shiftRight_six, and_3f, lor_c0 _ (by omega), lor_80 _ (by omega)]

theorem utf8Bytes_three {cp : Nat} (h1 : 0x800 ≤ cp) (h2 : cp ≤ 0xffff) :
    utf8Bytes cp =
      [0xe0 + cp / 4096, 0x80 + cp / 64 % 64, 0x80 + cp % 64] := by
  have hx1 : ¬cp ≤ 0x7f := by omega
  have hx2 : ¬cp ≤ 0x7ff := by omega
  simp only [utf8Bytes, hx1, if_false, hx2, h2, if_true]
  rw [shiftRight_twelve, shiftRight_six, and_3f, and_3f,
    lor_e0 _ (by omega), lor_80 _ (by omega), lor_80 _ (by omega)]

theorem utf8Bytes_four {cp : Nat} (h1 : 0x10000 ≤ cp) (h2 : cp ≤ 0x10ffff) :
    utf8Bytes cp =
      [0xf0 + cp / 262144, 0x80 + cp / 4096 % 64,
       0x80 + cp / 64 % 64, 0x80 + cp % 64] := by
  have hx1 : ¬cp ≤ 0x7f := by omega
  have hx2 : ¬cp ≤ 0x7ff := by omega
  have hx3 : ¬cp ≤ 0xffff := by omega
  simp only [utf8Bytes, hx1, hx2, hx3, if_false]
  rw [shiftRight_eighteen, shiftRight_twelve, shiftRight_six,
    and_3f, and_3f, and_3f, lor_f0 _ (by omega),
    lor_80 _ (by omega), lor_80 _ (by omega), lor_80 _ (by omega)]

theorem byteBits_length {b : Nat} (h : b < 256) : (byteBits b).length = 8 := by
  have hle := natToBin_length_le b 8 (by norm_num; omega) (by norm_num)
  simp only [byteBits, List.length_append, List.length_replicate]
  omega

theorem bitsToNat_byteBits (b : Nat) : bitsToNat (byteBits b) = b := by
  rw [byteBits, bitsToNat_replicate_false, bitsToNat_natToBin]

theorem readByte_byteBits {b : Nat} (rest : List Bool) (h : b < 256) :
    readByte (byteBits b ++ rest) = some (b, rest) := by
  have hl := byteBits_length h
  have ht : (byteBits b ++ rest).take 8 = byteBits b := by
    rw [← hl]; exact List.take_left _ _
  have hd : (byteBits b ++ rest).drop 8 = rest := by
    rw [← hl]; exact List.drop_left _ _
  unfold readByte
  rw [if_pos (by simp [List.length_append, hl]), ht, hd, bitsToNat_byteBits]

theorem decodeOneCp_cpBits {cp : Nat} (h : cp ≤ 0x10ffff) (rest : List Bool) :
    decodeOneCp (cpBits cp ++ rest) = some (cp, rest) := by
  by_cases h1 : cp ≤ 0x7f
  · have hb : cpBits cp ++ rest = byteBits cp ++ rest := by
      simp [cpBits, utf8Bytes_one h1]
    rw [hb]
    unfold decodeOneCp
    rw [readByte_byteBits rest (by omega)]
    dsimp only
    rw [if_pos (by omega)]
  · by_cases h2 : cp ≤ 0x7ff
    · have hb : cpBits cp ++ rest =
          byteBits (0xc0 + cp / 64) ++ (byteBits (0x80 + cp % 64) ++ rest) := by
        simp [cpBits, utf8Bytes_two (by omega) h2]
      rw [hb]
      unfold decodeOneCp
      rw [readByte_byteBits _ (by omega)]
      dsimp only
      rw [if_neg (by omega), if_pos (by omega)]
      rw [readByte_byteBits _ (by omega)]
      dsimp only
      have he : (0xc0 + cp / 64) % 0x20 * 0x40 + (0x80 + cp % 64) % 0x40 =
          cp := by omega
      rw [he]
    · by_cases h3 : cp ≤ 0xffff
      · have hb : cpBits cp ++ rest =
            byteBits (0xe0 + cp / 4096) ++ (byteBits (0x80 + cp / 64 % 64) ++
              (byteBits (0x80 + cp % 64) ++ rest)) := by
          simp [cpBits, utf8Bytes_three (by omega) h3]
        rw [hb]
        unfold decodeOneCp
        rw [readByte_byteBits _ (by omega)]
        dsimp only
        rw [if_neg (by omega), if_neg (by omega), if_pos (by omega)]
        rw [readByte_byteBits _ (by omega)]
        dsimp only
        rw [readByte_byteBits _ (by omega)]
        dsimp only
        have he : (0xe0 + cp / 4096) % 0x10 * 0x1000 +
            (0x80 + cp / 64 % 64) % 0x40 * 0x40 + (0x80 + cp % 64) % 0x40 =
            cp := by omega
        rw [he]
      · have hb : cpBits cp ++ rest =
            byteBits (0xf0 + cp / 262144) ++ (byteBits (0x80 + cp / 4096 % 64) ++
              (byteBits (0x80 + cp / 64 % 64) ++
                (byteBits (0x80 + cp % 64) ++ rest))) := by
          simp [cpBits, utf8Bytes_four (by omega) h]
        rw [hb]
        unfold decodeOneCp
        rw [readByte_byteBits _ (by omega)]
        dsimp only
        rw [if_neg (by omega), if_neg (by omega), if_neg (by omega)]
        rw [readByte_byteBits _ (by omega)]
        dsimp only
        rw [readByte_byteBits _ (by omega)]
        dsimp only
        rw [readByte_byteBits _ (by omega)]
        dsimp only
        have he : (0xf0 + cp / 262144) % 8 * 0x40000 +
            (0x80 + cp / 4096 % 64) % 0x40 * 0x1000 +
            (0x80 + cp / 64 % 64) % 0x40 * 0x40 + (0x80 + cp % 64) % 0x40 =
            cp := by omega
        rw [he]

theorem byteBits_length_ge (b : Nat) : 8 ≤ (byteBits b).length := by
  simp only [byteBits, List.length_append, List.length_replicate]
  omega

theorem cpBits_length_ge (cp : Nat) : 8 ≤ (cpBits cp).length := by
  unfold cpBits utf8Bytes
  split
  · simpa using byteBits_length_ge cp
  · split
    · simpa using le_add_right (byteBits_length_ge _)
    · split
      · simp only [List.flatMap_cons, List.flatMap_nil, List.append_nil,
          List.length_append]
        have := byteBits_length_ge (0xe0 ||| (cp >>> 12))
        omega
      · simp only [List.flatMap_cons, List.flatMap_nil, List.append_nil,
          List.length_append]
        have := byteBits_length_ge (0xf0 ||| (cp >>> 18))
        omega

theorem cpBits_length {cp : Nat} (h : cp ≤ 0x10ffff) :
    (cpBits cp).length = 8 * cpByteLen cp := by
  by_cases h1 : cp ≤ 0x7f
  · simp [cpBits, utf8Bytes_one h1, cpByteLen, h1,
      byteBits_length (show cp < 256 by omega)]
  · by_cases h2 : cp ≤ 0x7ff
    · simp [cpBits, utf8Bytes_two (by omega) h2, cpByteLen, h1, h2,
        byteBits_length (show 0xc0 + cp / 64 < 256 by omega),
        byteBits_length (show 0x80 + cp % 64 < 256 by omega)]
    · by_cases h3 : cp ≤ 0xffff
      · simp [cpBits, utf8Bytes_three (by omega) h3, cpByteLen, h1, h2, h3,
          byteBits_length (show 0xe0 + cp / 4096 < 256 by omega),
          byteBits_length (show 0x80 + cp / 64 % 64 < 256 by omega),
          byteBits_length (show 0x80 + cp % 64 < 256 by omega)]
      · simp [cpBits, utf8Bytes_four (by omega) h, cpByteLen, h1, h2, h3,
          byteBits_length (show 0xf0 + cp / 262144 < 256 by omega),
          byteBits_length (show 0x80 + cp / 4096 % 64 < 256 by omega),
          byteBits_length (show 0x80 + cp / 64 % 64 < 256 by omega),
          byteBits_length (show 0x80 + cp % 64 < 256 by omega)]

theorem cpToUnits_small {cp : Nat} (h : cp ≤ 0xffff) : cpToUnits cp = [cp] := by
  simp [cpToUnits, h]

theorem combineSurr_range {u v : Nat} (hu : isHiSurr u) (hv : isLoSurr v) :
    0x10000 ≤ combineSurr u v ∧ combineSurr u v ≤ 0x10ffff := by
  obtain ⟨u1, u2⟩ := hu
  obtain ⟨v1, v2⟩ := hv
  unfold combineSurr
  omega

theorem cpToUnits_combineSurr {u v : Nat} (hu : isHiSurr u) (hv : isLoSurr v) :
    cpToUnits (combineSurr u v) = [u, v] := by
  obtain ⟨u1, u2⟩ := hu
  obtain ⟨v1, v2⟩ := hv
  have hr : ¬combineSurr u v ≤ 0xffff := by unfold combineSurr; omega
  unfold cpToUnits
  rw [if_neg hr]
  have e1 : 0xd800 + (combineSurr u v - 0x10000) / 0x400 = u := by
    unfold combineSurr; omega
  have e2 : 0xdc00 + (combineSurr u v - 0x10000) % 0x400 = v := by
    unfold combineSurr; omega
  rw [e1, e2]

theorem toBinaryUtf8_pair {u v : Nat} (vs : JStr)
    (hp : isHiSurr u ∧ isLoSurr v) :
    toBinaryUtf8 (u :: v :: vs) =
      cpBits (combineSurr u v) ++ toBinaryUtf8 vs := by
  simp only [toBinaryUtf8]
  rw [if_pos hp]

theorem toBinaryUtf8_nonpair {u v : Nat} (vs : JStr)
    (hp : ¬(isHiSurr u ∧ isLoSurr v)) :
    toBinaryUtf8 (u :: v :: vs) = cpBits u ++ toBinaryUtf8 (v :: vs) := by
  simp only [toBinaryUtf8]
  rw [if_neg hp]

theorem getUtf8ByteLength_pair {u v : Nat} (vs : JStr)
    (hp : isHiSurr u ∧ isLoSurr v) :
    getUtf8ByteLength (u :: v :: vs) =
      cpByteLen (combineSurr u v) + getUtf8ByteLength vs := by
  simp only [getUtf8ByteLength]
  rw [if_pos hp]

theorem getUtf8ByteLength_nonpair {u v : Nat} (vs : JStr)
    (hp : ¬(isHiSurr u ∧ isLoSurr v)) :
    getUtf8ByteLength (u :: v :: vs) =
      cpByteLen u + getUtf8ByteLength (v :: vs) := by
  simp only [getUtf8ByteLength]
  rw [if_neg hp]

theorem toBinaryUtf8_length :
    ∀ fuel s, s.length ≤ fuel → (∀ u ∈ s, u < 65536) →
      (toBinaryUtf8 s).length = 8 * getUtf8ByteLength s := by
  intro fuel
  induction fuel with
  | zero =>
    intro s hl _
    match s with
    | [] => simp [toBinaryUtf8, getUtf8ByteLength]
  | succ f ih =>
    intro s hl h
    match s with
    | [] => simp [toBinaryUtf8, getUtf8ByteLength]
    | [u] =>
      simp only [toBinaryUtf8, getUtf8ByteLength]
      exact cpBits_length (by have := h u (by simp); omega)
    | u :: v :: vs =>
      by_cases hp : isHiSurr u ∧ isLoSurr v
      · rw [toBinaryUtf8_pair vs hp, getUtf8ByteLength_pair vs hp]
        have hcomb := combineSurr_range hp.1 hp.2
        simp only [List.length_append]
        rw [cpBits_length hcomb.2,
          ih vs (by simp at hl ⊢; omega) (fun x hx => h x (by simp [hx]))]
        ring
      · rw [toBinaryUtf8_nonpair vs hp, getUtf8ByteLength_nonpair vs hp]
        simp only [List.length_append]
        rw [cpBits_length (by have := h u (by simp); omega),
          ih (v :: vs) (by simp at hl ⊢; omega)
            (fun x hx => h x (by simp at hx ⊢; tauto))]
        ring

theorem toBinaryUtf8_length_ge :
    ∀ s : JStr, s.length ≤ (toBinaryUtf8 s).length := by
  intro s
  induction s using toBinaryUtf8.induct with
  | case1 => simp
  | case2 u =>
    simp only [toBinaryUtf8, List.length_cons, List.length_nil]
    have := cpBits_length_ge u
    omega
  | case3 u v vs hp ih =>
    rw [toBinaryUtf8_pair vs hp]
    simp only [List.length_append, List.length_cons]
    have := cpBits_length_ge (combineSurr u v)
    omega
  | case4 u v vs hp ih =>
    rw [toBinaryUtf8_nonpair vs hp]
    simp only [List.length_append, List.length_cons] at ih ⊢
    have := cpBits_length_ge u
    omega

theorem decodeOneCp_nil : decodeOneCp [] = none := by
  simp [decodeOneCp, readByte]

theorem decodeUtf8Run_nil : ∀ fuel, decodeUtf8Run fuel [] = [] := by
  intro fuel
  cases fuel with
  | zero => rfl
  | succ f => simp [decodeUtf8Run, decodeOneCp_nil]

theorem decodeUtf8Run_succ (fuel : Nat) (bits : List Bool) :
    decodeUtf8Run (fuel + 1) bits =
      match decodeOneCp bits with
      | none => []
      | some (cp, rest) => cpToUnits cp ++ decodeUtf8Run fuel rest := rfl

theorem decodeUnits_succ (fuel need : Nat) (bits : List Bool) :
    decodeUnits (fuel + 1) (need + 1) bits =
      match decodeOneCp bits with
      | none => ([], bits)
      | some (cp, rest) =>
        let us := cpToUnits cp
        let next := decodeUnits fuel (need + 1 - us.length) rest
        (us ++ next.1, next.2) := rfl

theorem decodeUtf8Run_toBinaryUtf8 :
    ∀ fuel s, (∀ u ∈ s, u < 65536) → s.length ≤ fuel →
      decodeUtf8Run fuel (toBinaryUtf8 s) = s := by
  intro fuel
  induction fuel with
  | zero =>
    intro s h hl
    match s with
    | [] => rfl
  | succ f ih =>
    intro s h hl
    match s with
    | [] =>
      rw [show toBinaryUtf8 [] = [] from by simp [toBinaryUtf8]]
      exact decodeUtf8Run_nil _
    | [u] =>
      have hu : u ≤ 0x10ffff := by have := h u (by simp); omega
      have hb : toBinaryUtf8 [u] = cpBits u ++ [] := by
        simp [toBinaryUtf8]
      rw [hb]
      rw [decodeUtf8Run_succ]
      rw [decodeOneCp_cpBits hu]
      dsimp only
      rw [cpToUnits_small (by have := h u (by simp); omega),
        decodeUtf8Run_nil]
      simp
    | u :: v :: vs =>
      by_cases hp : isHiSurr u ∧ isLoSurr v
      · have hcomb := combineSurr_range hp.1 hp.2
        rw [toBinaryUtf8_pair vs hp]
        rw [decodeUtf8Run_succ]
        rw [decodeOneCp_cpBits hcomb.2]
        dsimp only
        rw [cpToUnits_combineSurr hp.1 hp.2,
          ih vs (fun x hx => h x (by simp [hx])) (by simp at hl ⊢; omega)]
        simp
      · have hu : u ≤ 0x10ffff := by have := h u (by simp); omega
        rw [toBinaryUtf8_nonpair vs hp]
        rw [decodeUtf8Run_succ]
        rw [decodeOneCp_cpBits hu]
        dsimp only
        rw [cpToUnits_small (by have := h u (by simp); omega),
          ih (v :: vs) (fun x hx => h x (by simp at hx ⊢; tauto))
            (by simp at hl ⊢; omega)]
        simp

theorem decodeUnits_zero (fuel : Nat) (bits : List Bool) :
    decodeUnits fuel 0 bits = ([], bits) := by
  cases fuel <;> rfl

theorem decodeUnits_toBinaryUtf8 :
    ∀ fuel s rest, (∀ u ∈ s, u < 65536) → s.length ≤ fuel →
      decodeUnits fuel s.length (toBinaryUtf8 s ++ rest) = (s, rest) := by
  intro fuel
  induction fuel with
  | zero =>
    intro s rest h hl
    match s with
    | [] =>
      rw [show toBinaryUtf8 [] = [] from by simp [toBinaryUtf8]]
      simp [decodeUnits_zero]
  | succ f ih =>
    intro s rest h hl
    match s with
    | [] =>
      rw [show toBinaryUtf8 [] = [] from by simp [toBinaryUtf8]]
      simp [decodeUnits_zero]
    | [u] =>
      have hu : u ≤ 0x10ffff := by have := h u (by simp); omega
      have hb : toBinaryUtf8 [u] ++ rest = cpBits u ++ rest := by
        simp [toBinaryUtf8]
      rw [hb]
      show decodeUnits (f + 1) (0 + 1) (cpBits u ++ rest) = ([u], rest)
      rw [decodeUnits_succ]
      rw [decodeOneCp_cpBits hu]
      dsimp only
      simp only [cpToUnits_small (show u ≤ 0xffff by have := h u (by simp); omega)]
      simp [decodeUnits_zero]
    | u :: v :: vs =>
      by_cases hp : isHiSurr u ∧ isLoSurr v
      · have hcomb := combineSurr_range hp.1 hp.2
        rw [show toBinaryUtf8 (u :: v :: vs) ++ rest =
            cpBits (combineSurr u v) ++ (toBinaryUtf8 vs ++ rest) from by
          rw [toBinaryUtf8_pair vs hp, List.append_assoc]]
        show decodeUnits (f + 1) (vs.length + 1 + 1)
          (cpBits (combineSurr u v) ++ (toBinaryUtf8 vs ++ rest)) =
          (u :: v :: vs, rest)
        rw [decodeUnits_succ]
        rw [decodeOneCp_cpBits hcomb.2]
        dsimp only
        simp only [cpToUnits_combineSurr hp.1 hp.2]
        have harith : vs.length + 1 + 1 - [u, v].length = vs.length := by
          simp
        simp only [List.length_cons, List.length_nil]
        rw [show vs.length + 1 + 1 - (0 + 1 + 1) = vs.length by omega]
        rw [ih vs rest (fun x hx => h x (by simp [hx]))
          (by simp at hl ⊢; omega)]
        simp
      · have hu : u ≤ 0x10ffff := by have := h u (by simp); omega
        rw [show toBinaryUtf8 (u :: v :: vs) ++ rest =
            cpBits u ++ (toBinaryUtf8 (v :: vs) ++ rest) from by
          rw [toBinaryUtf8_nonpair vs hp, List.append_assoc]]
        show decodeUnits (f + 1) (vs.length + 1 + 1)
          (cpBits u ++ (toBinaryUtf8 (v :: vs) ++ rest)) =
          (u :: v :: vs, rest)
        rw [decodeUnits_succ]
        rw [decodeOneCp_cpBits hu]
        dsimp only
        simp only [cpToUnits_small
          (show u ≤ 0xffff by have := h u (by simp); omega)]
        simp only [List.length_cons, List.length_nil]
        rw [show vs.length + 1 + 1 - (0 + 1) = vs.length + 1 by omega]
        have hvv : (v :: vs).length = vs.length + 1 := by simp
        rw [show (decodeUnits f (vs.length + 1) (toBinaryUtf8 (v :: vs) ++ rest)) =
            (v :: vs, rest) from by
          rw [← hvv]
          exact ih (v :: vs) rest (fun x hx => h x (by simp at hx ⊢; tauto))
            (by simp at hl ⊢; omega)]
        simp

/-! ## Match-index invariants -/

theorem growLen_ge (p txt : JStr) (i s bound : Nat) :
    ∀ fuel ml, ml ≤ growLen p txt i s bound fuel ml := by
  intro fuel
  induction fuel with
  | zero => intro ml; simp [growLen]
  | succ f ih =>
    intro ml
    simp only [growLen]
    split
    · exact le_trans (by omega) (ih (ml + 1))
    · exact le_refl ml

theorem growLen_le (p txt : JStr) (i s bound : Nat) :
    ∀ fuel ml, growLen p txt i s bound fuel ml ≤ max ml bound := by
  intro fuel
  induction fuel with
  | zero => intro ml; simp [growLen]
  | succ f ih =>
    intro ml
    simp only [growLen]
    split
    · rename_i hcond
      exact le_trans (ih (ml + 1)) (by omega)
    · omega

theorem growLen_chars (p txt : JStr) (i s bound : Nat) :
    ∀ fuel ml, (∀ t, t < ml → p.getD (i + t) 0 = txt.getD (s + t) 0) →
      ∀ t, t < growLen p txt i s bound fuel ml →
        p.getD (i + t) 0 = txt.getD (s + t) 0 := by
  intro fuel
  induction fuel with
  | zero =>
    intro ml hml t ht
    simp only [growLen] at ht
    exact hml t ht
  | succ f ih =>
    intro ml hml t ht
    simp only [growLen] at ht
    split at ht
    · rename_i hcond
      refine ih (ml + 1) ?_ t ht
      intro t' ht'
      rcases Nat.lt_or_ge t' ml with hlt | hge
      · exact hml t' hlt
      · have : t' = ml := by omega
        subst this
        exact hcond.2
    · exact hml t ht

theorem matchesAt_spec {p : JStr} {dict : List JStr} {gmm i : Nat}
    {m : MatchRef} (hm : m ∈ matchesAt p dict gmm i) :
    m.doc < dict.length ∧
    m.idx < (dict.getD m.doc []).length ∧
    3 ≤ m.len ∧ m.len ≤ gmm ∧ i + m.len ≤ p.length ∧
    m.idx + m.len ≤ (dict.getD m.doc []).length ∧
    (∀ t, t < m.len →
      p.getD (i + t) 0 = (dict.getD m.doc []).getD (m.idx + t) 0) := by
  unfold matchesAt at hm
  rw [List.mem_flatMap] at hm
  obtain ⟨j, hj, hm⟩ := hm
  rw [List.mem_range] at hj
  rw [List.mem_flatMap] at hm
  obtain ⟨s, hs, hm⟩ := hm
  dsimp only at hm
  unfold occList at hs
  rw [List.mem_filter, List.mem_range] at hs
  obtain ⟨hslt, hseq⟩ := hs
  have hseq' : (dict.getD j []).getD s 0 = p.getD i 0 := by
    exact of_decide_eq_true hseq
  set txt := dict.getD j [] with htxt
  set bound := min gmm (min (p.length - i) (txt.length - s)) with hbound
  set ml := growLen p txt i s bound bound 1 with hml
  split at hm
  · rename_i hgt
    rw [List.mem_singleton] at hm
    subst hm
    have hge := growLen_ge p txt i s bound bound 1
    have hle := growLen_le p txt i s bound bound 1
    have hbd : ml ≤ bound := by
      rw [← hml] at hle
      omega
    have hchars : ∀ t, t < ml → p.getD (i + t) 0 = txt.getD (s + t) 0 := by
      refine growLen_chars p txt i s bound bound 1 ?_
      intro t ht
      have : t = 0 := by omega
      subst this
      simpa using hseq'.symm
    dsimp only
    rw [← htxt]
    refine ⟨hj, hslt, by omega, by omega, by omega, by omega, hchars⟩
  · simp at hm

/-! ## `pickBest` and DP-table lemmas -/

theorem pickBest_aux (l : List (Nat × Ch)) :
    ∀ a : Nat × Ch,
      ∃ c, l.foldl
          (fun acc c =>
            match acc with
            | none => some c
            | some a => if c.1 < a.1 then some c else some a) (some a) =
          some c ∧
        (c = a ∨ c ∈ l) ∧ c.1 ≤ a.1 ∧ ∀ x ∈ l, c.1 ≤ x.1 := by
  induction l with
  | nil => intro a; exact ⟨a, rfl, Or.inl rfl, le_refl _, by simp⟩
  | cons b t ih =>
    intro a
    simp only [List.foldl_cons]
    by_cases hb : b.1 < a.1
    · obtain ⟨c, hc1, hc2, hc3, hc4⟩ := ih b
      refine ⟨c, ?_, ?_, by omega, ?_⟩
      · rw [← hc1]
        congr 1
        simp [hb]
      · rcases hc2 with rfl | hmem
        · exact Or.inr (by simp)
        · exact Or.inr (by simp [hmem])
      · intro x hx
        rcases List.mem_cons.1 hx with rfl | hx
        · omega
        · exact hc4 x hx
    · obtain ⟨c, hc1, hc2, hc3, hc4⟩ := ih a
      refine ⟨c, ?_, ?_, hc3, ?_⟩
      · rw [← hc1]
        congr 1
        simp [hb]
      · rcases hc2 with rfl | hmem
        · exact Or.inl rfl
        · exact Or.inr (by simp [hmem])
      · intro x hx
        rcases List.mem_cons.1 hx with rfl | hx
        · omega
        · exact hc4 x hx

theorem pickBest_spec {l : List (Nat × Ch)} {c : Nat × Ch}
    (h : pickBest l = some c) : c ∈ l ∧ ∀ x ∈ l, c.1 ≤ x.1 := by
  match l with
  | [] => simp [pickBest] at h
  | a :: t =>
    obtain ⟨c', hc1, hc2, hc3, hc4⟩ := pickBest_aux t a
    have : pickBest (a :: t) = some c' := by
      simpa [pickBest, List.foldl_cons] using hc1
    rw [this] at h
    injection h with h
    subst h
    refine ⟨?_, ?_⟩
    · rcases hc2 with rfl | hmem
      · simp
      · simp [hmem]
    · intro x hx
      rcases List.mem_cons.1 hx with rfl | hx
      · exact hc3
      · exact hc4 x hx

theorem pickBest_of_ne_nil {l : List (Nat × Ch)} (h : l ≠ []) :
    ∃ c, pickBest l = some c := by
  match l with
  | a :: t =>
    obtain ⟨c', hc1, _, _, _⟩ := pickBest_aux t a
    exact ⟨c', by simpa [pickBest, List.foldl_cons] using hc1⟩

theorem litCandsAt_length (p : JStr) (prev : List (Nat × Option Ch))
    (i k1 : Nat) :
    (litCandsAt p prev i k1).length = min MAX_LITERAL_LEN k1 := by
  simp [litCandsAt]

theorem candsAt_ne_nil (p : JStr) (dict : List JStr)
    (prev : List (Nat × Option Ch)) {k1 : Nat} (h : 1 ≤ k1) :
    candsAt p dict prev k1 ≠ [] := by
  have hlen : 0 < (candsAt p dict prev k1).length := by
    have := litCandsAt_length p prev (p.length - k1) k1
    simp only [candsAt, List.length_append]
    have hm : 0 < min MAX_LITERAL_LEN k1 := by
      simp [MAX_LITERAL_LEN]; omega
    omega
  exact List.ne_nil_of_length_pos hlen

theorem getD_zero_headD (l : List (Nat × Option Ch)) (d : Nat × Option Ch) :
    l.getD 0 d = l.headD d := by
  cases l <;> rfl

theorem dpTable_succ (p : JStr) (dict : List JStr) (k : Nat) :
    dpTable p dict (k + 1) =
      dpEntry p dict (dpTable p dict k) (k + 1) :: dpTable p dict k := rfl

theorem dpTable_getD (p : JStr) (dict : List JStr) :
    ∀ j k, j ≤ k →
      (dpTable p dict k).getD j (0, none) =
        (dpTable p dict (k - j)).headD (0, none) := by
  intro j
  induction j with
  | zero =>
    intro k _
    simpa using getD_zero_headD _ _
  | succ j ih =>
    intro k hk
    match k with
    | k' + 1 =>
      rw [dpTable_succ, List.getD_cons_succ, ih k' (by omega),
        show k' + 1 - (j + 1) = k' - j from by omega]

theorem dpTable_getD_cost (p : JStr) (dict : List JStr) {k j : Nat}
    (hj : j ≤ k) :
    ((dpTable p dict k).getD j (0, none)).1 = dpCost p dict (k - j) := by
  rw [dpTable_getD p dict j k hj]
  rfl

theorem dpCost_zero (p : JStr) (dict : List JStr) : dpCost p dict 0 = 0 := rfl

theorem dp_step (p : JStr) (dict : List JStr) (k : Nat) :
    ∃ c ch,
      pickBest (candsAt p dict (dpTable p dict k) (k + 1)) = some (c, ch) ∧
      dpCost p dict (k + 1) = c ∧ choiceAt p dict (k + 1) = some ch := by
  obtain ⟨⟨c, ch⟩, hpick⟩ :=
    pickBest_of_ne_nil (candsAt_ne_nil p dict (dpTable p dict k)
      (show 1 ≤ k + 1 by omega))
  refine ⟨c, ch, hpick, ?_, ?_⟩
  · simp [dpCost, dpTable_succ, dpEntry, hpick]
  · simp [choiceAt, dpTable_succ, dpEntry, hpick]

theorem litCandsAt_mem {p : JStr} {prev : List (Nat × Option Ch)}
    {i k1 L : Nat} (h1 : 1 ≤ L) (h2 : L ≤ min MAX_LITERAL_LEN k1) :
    (1 + getBitWidth MAX_LITERAL_LEN +
        getUtf8ByteLength ((p.drop i).take L) * 8 +
        (prev.getD (L - 1) (0, none)).1,
      Ch.lit L ((p.drop i).take L)) ∈ litCandsAt p prev i k1 := by
  unfold litCandsAt
  rw [List.mem_map]
  refine ⟨L - 1, ?_, ?_⟩
  · rw [List.mem_range]; omega
  · dsimp only
    rw [show L - 1 + 1 = L from by omega]

theorem litCandsAt_spec {p : JStr} {prev : List (Nat × Option Ch)}
    {i k1 : Nat} {x : Nat × Ch} (hx : x ∈ litCandsAt p prev i k1) :
    ∃ L, 1 ≤ L ∧ L ≤ min MAX_LITERAL_LEN k1 ∧
      x = (1 + getBitWidth MAX_LITERAL_LEN +
        getUtf8ByteLength ((p.drop i).take L) * 8 +
        (prev.getD (L - 1) (0, none)).1,
        Ch.lit L ((p.drop i).take L)) := by
  unfold litCandsAt at hx
  rw [List.mem_map] at hx
  obtain ⟨L0, hL0, heq⟩ := hx
  rw [List.mem_range] at hL0
  refine ⟨L0 + 1, by omega, by omega, ?_⟩
  dsimp only at heq
  rw [← heq, show L0 + 1 - 1 = L0 from by omega]

theorem refCandsAt_mem {p : JStr} {dict : List JStr}
    {prev : List (Nat × Option Ch)} {gmm i : Nat} {m : MatchRef}
    (hm : m ∈ matchesAt p dict gmm i) :
    (1 + getBitWidth dict.length + getBitWidth (dict.getD m.doc []).length +
        getBitWidth gmm + (prev.getD (m.len - 1) (0, none)).1,
      Ch.ref m.doc m.idx m.len) ∈ refCandsAt p dict prev gmm i := by
  unfold refCandsAt
  rw [List.mem_map]
  exact ⟨m, hm, rfl⟩

theorem refCandsAt_spec {p : JStr} {dict : List JStr}
    {prev : List (Nat × Option Ch)} {gmm i : Nat} {x : Nat × Ch}
    (hx : x ∈ refCandsAt p dict prev gmm i) :
    ∃ m, m ∈ matchesAt p dict gmm i ∧
      x = (1 + getBitWidth dict.length +
        getBitWidth (dict.getD m.doc []).length +
        getBitWidth gmm + (prev.getD (m.len - 1) (0, none)).1,
        Ch.ref m.doc m.idx m.len) := by
  unfold refCandsAt at hx
  rw [List.mem_map] at hx
  obtain ⟨m, hm, heq⟩ := hx
  exact ⟨m, hm, heq.symm⟩

theorem dpCost_le_lit (p : JStr) (dict : List JStr) {k L : Nat}
    (h1 : 1 ≤ L) (h250 : L ≤ MAX_LITERAL_LEN) (hk : L ≤ k + 1) :
    dpCost p dict (k + 1) ≤
      1 + getBitWidth MAX_LITERAL_LEN +
        getUtf8ByteLength ((p.drop (p.length - (k + 1))).take L) * 8 +
        dpCost p dict (k + 1 - L) := by
  obtain ⟨c, ch, hpick, hcost, _⟩ := dp_step p dict k
  have hmem := @litCandsAt_mem p (dpTable p dict k)
    (p.length - (k + 1)) (k + 1) L h1 (by omega)
  have hle := (pickBest_spec hpick).2 _
    (show _ ∈ candsAt p dict (dpTable p dict k) (k + 1) from
      List.mem_append_left _ hmem)
  rw [dpTable_getD_cost p dict (show L - 1 ≤ k by omega),
    show k - (L - 1) = k + 1 - L from by omega] at hle
  rw [hcost]
  exact hle

theorem dpCost_le_ref (p : JStr) (dict : List JStr) {k : Nat} {m : MatchRef}
    (hm : m ∈ matchesAt p dict (maxDictLen dict) (p.length - (k + 1))) :
    dpCost p dict (k + 1) ≤
      1 + getBitWidth dict.length + getBitWidth (dict.getD m.doc []).length +
        getBitWidth (maxDictLen dict) + dpCost p dict (k + 1 - m.len) := by
  have hspec := matchesAt_spec hm
  have hlen : m.len ≤ k + 1 := by omega
  obtain ⟨c, ch, hpick, hcost, _⟩ := dp_step p dict k
  have hmem := @refCandsAt_mem p dict (dpTable p dict k)
    (maxDictLen dict) (p.length - (k + 1)) m hm
  have hle := (pickBest_spec hpick).2 _
    (show _ ∈ candsAt p dict (dpTable p dict k) (k + 1) from
      List.mem_append_right _ hmem)
  rw [dpTable_getD_cost p dict (show m.len - 1 ≤ k by omega),
    show k - (m.len - 1) = k + 1 - m.len from by omega] at hle
  rw [hcost]
  exact hle

theorem choiceAt_spec (p : JStr) (dict : List JStr) (k : Nat) :
    ∃ ch, choiceAt p dict (k + 1) = some ch ∧
      ((∃ L, 1 ≤ L ∧ L ≤ MAX_LITERAL_LEN ∧ L ≤ k + 1 ∧
          ch = Ch.lit L ((p.drop (p.length - (k + 1))).take L) ∧
          dpCost p dict (k + 1) =
            1 + getBitWidth MAX_LITERAL_LEN +
              getUtf8ByteLength ((p.drop (p.length - (k + 1))).take L) * 8 +
              dpCost p dict (k + 1 - L)) ∨
       (∃ m, m ∈ matchesAt p dict (maxDictLen dict) (p.length - (k + 1)) ∧
          ch = Ch.ref m.doc m.idx m.len ∧
          dpCost p dict (k + 1) =
            1 + getBitWidth dict.length +
              getBitWidth (dict.getD m.doc []).length +
              getBitWidth (maxDictLen dict) +
              dpCost p dict (k + 1 - m.len))) := by
  obtain ⟨c, ch, hpick, hcost, hch⟩ := dp_step p dict k
  refine ⟨ch, hch, ?_⟩
  have hmem := (pickBest_spec hpick).1
  unfold candsAt at hmem
  rcases List.mem_append.1 hmem with hlit | href
  · obtain ⟨L, hL1, hL2, heq⟩ := litCandsAt_spec hlit
    rw [Prod.mk.injEq] at heq
    obtain ⟨h1, h2⟩ := heq
    subst h1
    subst h2
    left
    refine ⟨L, hL1, by omega, by omega, rfl, ?_⟩
    rw [hcost, dpTable_getD_cost p dict (show L - 1 ≤ k by omega),
      show k - (L - 1) = k + 1 - L from by omega]
  · obtain ⟨m, hm, heq⟩ := refCandsAt_spec href
    rw [Prod.mk.injEq] at heq
    obtain ⟨h1, h2⟩ := heq
    subst h1
    subst h2
    right
    have hspec := matchesAt_spec hm
    have hlen : m.len ≤ k + 1 := by omega
    refine ⟨m, hm, rfl, ?_⟩
    rw [hcost, dpTable_getD_cost p dict (show m.len - 1 ≤ k by omega),
      show k - (m.len - 1) = k + 1 - m.len from by omega]

/-! ## Emission lemmas -/

theorem emitFrom_of_ge {p : JStr} {dict : List JStr} {i : Nat}
    (h : p.length ≤ i) : emitFrom p dict i = ([], []) := by
  rw [emitFrom]
  rw [dif_neg (by omega)]

theorem emitFrom_lit {p : JStr} {dict : List JStr} {i L : Nat} {sub : JStr}
    (h : i < p.length)
    (hch : choiceAt p dict (p.length - i) = some (Ch.lit L sub)) :
    emitFrom p dict i =
      (false :: (encodeInt (max 1 L) MAX_LITERAL_LEN ++
          toBinaryUtf8
            (if sub.isEmpty then (p.drop i).take (max 1 L) else sub)) ++
          (emitFrom p dict (i + max 1 L)).1,
       ⟨none, i, max 1 L⟩ :: (emitFrom p dict (i + max 1 L)).2) := by
  conv_lhs => rw [emitFrom]
  rw [dif_pos h, hch]
  rfl

theorem emitFrom_ref {p : JStr} {dict : List JStr} {i d idx L : Nat}
    (h : i < p.length)
    (hch : choiceAt p dict (p.length - i) = some (Ch.ref d idx L)) :
    emitFrom p dict i =
      (true :: (encodeInt d dict.length ++
          encodeInt idx (dict.getD d []).length ++
          encodeInt (max 1 L) (maxDictLen dict)) ++
          (emitFrom p dict (i + max 1 L)).1,
       ⟨some d, idx, max 1 L⟩ :: (emitFrom p dict (i + max 1 L)).2) := by
  conv_lhs => rw [emitFrom]
  rw [dif_pos h, hch]
  rfl

theorem mem_slice_mem {p : JStr} {i L u : Nat}
    (hu : u ∈ (p.drop i).take L) : u ∈ p :=
  List.mem_of_mem_drop (List.mem_of_mem_take hu)

theorem slice_not_empty {p : JStr} {i L : Nat} (hL : 1 ≤ L)
    (hi : i < p.length) : ((p.drop i).take L).isEmpty = false := by
  cases hcase : (p.drop i).take L with
  | nil =>
    exfalso
    have := congrArg List.length hcase
    simp [List.length_take, List.length_drop] at this
    omega
  | cons a t => rfl

theorem emitFrom_length (p : JStr) (dict : List JStr)
    (hunits : ∀ u ∈ p, u < 65536) :
    ∀ k i, p.length - i ≤ k →
      (emitFrom p dict i).1.length = dpCost p dict (p.length - i) := by
  intro k
  induction k with
  | zero =>
    intro i hi
    rw [emitFrom_of_ge (by omega), show p.length - i = 0 from by omega,
      dpCost_zero]
    rfl
  | succ k ih =>
    intro i hi
    by_cases hlt : i < p.length
    · have hk1 : p.length - i - 1 + 1 = p.length - i := by omega
      have hpos : p.length - (p.length - i) = i := by omega
      obtain ⟨ch, hch, hcase⟩ := choiceAt_spec p dict (p.length - i - 1)
      rw [hk1] at hch
      rcases hcase with ⟨L, hL1, hL250, hLk, hcheq, hcost⟩ |
        ⟨m, hm, hcheq, hcost⟩
      · rw [hk1] at hLk hcheq hcost
        rw [hpos] at hcheq hcost
        subst hcheq
        rw [emitFrom_lit hlt hch]
        have hmax : max 1 L = L := by omega
        rw [hmax, ite_self]
        have henc : (encodeInt L MAX_LITERAL_LEN).length =
            getBitWidth MAX_LITERAL_LEN := encodeInt_length hL250
        have hbin : (toBinaryUtf8 ((p.drop i).take L)).length =
            8 * getUtf8ByteLength ((p.drop i).take L) :=
          toBinaryUtf8_length ((p.drop i).take L).length _ le_rfl
            (fun u hu => hunits u (mem_slice_mem hu))
        have hrest : (emitFrom p dict (i + L)).1.length =
            dpCost p dict (p.length - (i + L)) := ih (i + L) (by omega)
        dsimp only
        simp only [List.length_cons, List.length_append, henc, hbin, hrest]
        rw [hcost, show p.length - i - L = p.length - (i + L) from by omega]
        omega
      · rw [hk1] at hcost
        rw [hk1, hpos] at hm
        subst hcheq
        have hspec := matchesAt_spec hm
        rw [emitFrom_ref hlt hch]
        have hmax : max 1 m.len = m.len := by omega
        rw [hmax]
        have henc1 : (encodeInt m.doc dict.length).length =
            getBitWidth dict.length := encodeInt_length (by omega)
        have henc2 : (encodeInt m.idx (dict.getD m.doc []).length).length =
            getBitWidth (dict.getD m.doc []).length :=
          encodeInt_length (by omega)
        have henc3 : (encodeInt m.len (maxDictLen dict)).length =
            getBitWidth (maxDictLen dict) := encodeInt_length (by omega)
        have hrest : (emitFrom p dict (i + m.len)).1.length =
            dpCost p dict (p.length - (i + m.len)) := ih (i + m.len) (by omega)
        dsimp only
        simp only [List.length_cons, List.length_append, henc1, henc2, henc3,
          hrest]
        rw [hcost,
          show p.length - i - m.len = p.length - (i + m.len) from by omega]
        omega
    · rw [emitFrom_of_ge (by omega), show p.length - i = 0 from by omega,
        dpCost_zero]
      rfl

/-! ## DP optimality against spec-side decompositions -/

theorem dpCost_le_costFrom (p : JStr) (dict : List JStr) :
    ∀ ts i, ValidFrom p dict i ts →
      dpCost p dict (p.length - i) ≤ costFrom p dict i ts := by
  intro ts
  induction ts with
  | nil =>
    intro i hv
    unfold ValidFrom at hv
    subst hv
    simp [costFrom, dpCost_zero]
  | cons t ts ih =>
    intro i hv
    match t with
    | .lit L =>
      unfold ValidFrom at hv
      obtain ⟨h1, h2, h3, hv⟩ := hv
      unfold costFrom
      have hk : p.length - i - 1 + 1 = p.length - i := by omega
      have hpos : p.length - (p.length - i) = i := by omega
      have hb := dpCost_le_lit p dict (k := p.length - i - 1) (L := L) h1 h2
        (by omega)
      rw [hk, hpos] at hb
      have hrec := ih (i + L) hv
      rw [show p.length - (i + L) = p.length - i - L from by omega] at hrec
      omega
    | .ref m =>
      unfold ValidFrom at hv
      obtain ⟨hm, hv⟩ := hv
      have hspec := matchesAt_spec hm
      unfold costFrom
      have hk : p.length - i - 1 + 1 = p.length - i := by omega
      have hpos : p.length - (p.length - i) = i := by omega
      have hm' : m ∈ matchesAt p dict (maxDictLen dict)
          (p.length - (p.length - i - 1 + 1)) := by
        rw [hk, hpos]
        exact hm
      have hb := dpCost_le_ref p dict (k := p.length - i - 1) hm'
      rw [hk] at hb
      have hrec := ih (i + m.len) hv
      rw [show p.length - (i + m.len) = p.length - i - m.len from by omega]
        at hrec
      omega

theorem exists_costFrom_eq_dpCost (p : JStr) (dict : List JStr) :
    ∀ k i, p.length - i ≤ k → i ≤ p.length →
      ∃ ts, ValidFrom p dict i ts ∧
        costFrom p dict i ts = dpCost p dict (p.length - i) := by
  intro k
  induction k with
  | zero =>
    intro i h1 h2
    have : i = p.length := by omega
    subst this
    exact ⟨[], rfl, by simp [costFrom, dpCost_zero]⟩
  | succ k ih =>
    intro i h1 h2
    by_cases hlt : i < p.length
    · have hk1 : p.length - i - 1 + 1 = p.length - i := by omega
      have hpos : p.length - (p.length - i) = i := by omega
      obtain ⟨ch, hch, hcase⟩ := choiceAt_spec p dict (p.length - i - 1)
      rcases hcase with ⟨L, hL1, hL250, hLk, hcheq, hcost⟩ |
        ⟨m, hm, hcheq, hcost⟩
      · rw [hk1] at hLk hcost
        obtain ⟨ts, hv, hc⟩ := ih (i + L) (by omega) (by omega)
        refine ⟨.lit L :: ts, ⟨hL1, hL250, by omega, hv⟩, ?_⟩
        unfold costFrom
        rw [hc, show p.length - (i + L) = p.length - i - L from by omega,
          hcost, hpos]
        omega
      · rw [hk1] at hcost
        rw [hk1, hpos] at hm
        have hspec := matchesAt_spec hm
        obtain ⟨ts, hv, hc⟩ := ih (i + m.len) (by omega) (by omega)
        refine ⟨.ref m :: ts, ⟨hm, hv⟩, ?_⟩
        unfold costFrom
        rw [hc,
          show p.length - (i + m.len) = p.length - i - m.len from by omega,
          hcost]
    · have : i = p.length := by omega
      subst this
      exact ⟨[], rfl, by simp [costFrom, dpCost_zero]⟩

/-! ## Decoding the emitted token stream -/

theorem decodeTokens_nil (dict : List JStr) (gmm : Nat) :
    ∀ fuel, decodeTokens dict gmm fuel [] = [] := by
  intro fuel
  cases fuel <;> rfl

theorem decodeTokens_cons (dict : List JStr) (gmm fuel : Nat) (kind : Bool)
    (rest : List Bool) :
    decodeTokens dict gmm (fuel + 1) (kind :: rest) =
      if kind then
        (let w1 := getBitWidth dict.length
         let d := bitsToNat (rest.take w1)
         let r1 := rest.drop w1
         let txt := dict.getD d []
         let w2 := getBitWidth txt.length
         let o := bitsToNat (r1.take w2)
         let r2 := r1.drop w2
         let w3 := getBitWidth gmm
         let len := bitsToNat (r2.take w3)
         let r3 := r2.drop w3
         (txt.drop o).take len ++ decodeTokens dict gmm fuel r3)
      else
        (let w := getBitWidth MAX_LITERAL_LEN
         let len := bitsToNat (rest.take w)
         let r1 := rest.drop w
         let dec := decodeUnits len len r1
         dec.1 ++ decodeTokens dict gmm fuel dec.2) := rfl

theorem decodeTokens_lit_tok (dict : List JStr) (gmm fuel : Nat) {L : Nat}
    {sub : JStr} (rest : List Bool) (hL250 : L ≤ MAX_LITERAL_LEN)
    (hsub : sub.length = L) (hunits : ∀ u ∈ sub, u < 65536) :
    decodeTokens dict gmm (fuel + 1)
      (false :: (encodeInt L MAX_LITERAL_LEN ++ toBinaryUtf8 sub) ++ rest) =
      sub ++ decodeTokens dict gmm fuel rest := by
  rw [List.cons_append, decodeTokens_cons, if_neg (by simp)]
  have hassoc : (encodeInt L MAX_LITERAL_LEN ++ toBinaryUtf8 sub) ++ rest =
      encodeInt L MAX_LITERAL_LEN ++ (toBinaryUtf8 sub ++ rest) := by
    rw [List.append_assoc]
  rw [hassoc]
  obtain ⟨htake, hdrop⟩ :=
    take_append_encodeInt L MAX_LITERAL_LEN (toBinaryUtf8 sub ++ rest) hL250
  dsimp only
  rw [htake, hdrop, bitsToNat_encodeInt]
  have hdec := decodeUnits_toBinaryUtf8 L sub rest
    (by intro u hu; exact hunits u hu) (by omega)
  rw [hsub] at hdec
  rw [hdec]

theorem decodeTokens_ref_tok (dict : List JStr) (gmm fuel : Nat)
    {d o L : Nat} (rest : List Bool) (hd : d ≤ dict.length)
    (ho : o ≤ (dict.getD d []).length) (hL : L ≤ gmm) :
    decodeTokens dict gmm (fuel + 1)
      (true :: (encodeInt d dict.length ++
        encodeInt o (dict.getD d []).length ++ encodeInt L gmm) ++ rest) =
      ((dict.getD d []).drop o).take L ++ decodeTokens dict gmm fuel rest := by
  rw [List.cons_append, decodeTokens_cons, if_pos rfl]
  have hassoc : (encodeInt d dict.length ++
      encodeInt o (dict.getD d []).length ++ encodeInt L gmm) ++ rest =
      encodeInt d dict.length ++
        (encodeInt o (dict.getD d []).length ++ (encodeInt L gmm ++ rest)) := by
    simp [List.append_assoc]
  rw [hassoc]
  obtain ⟨htake1, hdrop1⟩ := take_append_encodeInt d dict.length
    (encodeInt o (dict.getD d []).length ++ (encodeInt L gmm ++ rest)) hd
  dsimp only
  rw [htake1, hdrop1, bitsToNat_encodeInt]
  obtain ⟨htake2, hdrop2⟩ := take_append_encodeInt o
    (dict.getD d []).length (encodeInt L gmm ++ rest) ho
  rw [htake2, hdrop2, bitsToNat_encodeInt]
  obtain ⟨htake3, hdrop3⟩ := take_append_encodeInt L gmm rest hL
  rw [htake3, hdrop3, bitsToNat_encodeInt]

theorem slices_eq {p txt : JStr} {i s L : Nat} (h1 : i + L ≤ p.length)
    (h2 : s + L ≤ txt.length)
    (hchars : ∀ t, t < L → p.getD (i + t) 0 = txt.getD (s + t) 0) :
    (txt.drop s).take L = (p.drop i).take L := by
  apply List.ext_getElem
  · simp only [List.length_take, List.length_drop]
    omega
  · intro n hn1 hn2
    simp only [List.length_take, List.length_drop] at hn1 hn2
    have ht : n < L := by omega
    rw [List.getElem_take, List.getElem_drop, List.getElem_take,
      List.getElem_drop]
    have := hchars n ht
    rw [List.getD_eq_getElem p 0 (by omega), List.getD_eq_getElem txt 0
      (by omega)] at this
    omega

theorem decodeTokens_emitFrom (p : JStr) (dict : List JStr)
    (hunits : ∀ u ∈ p, u < 65536) :
    ∀ k i fuel, p.length - i ≤ k →
      (emitFrom p dict i).1.length ≤ fuel →
      decodeTokens dict (maxDictLen dict) fuel (emitFrom p dict i).1 =
        p.drop i := by
  intro k
  induction k with
  | zero =>
    intro i fuel hk hf
    rw [emitFrom_of_ge (by omega)]
    rw [show (([], []) : List Bool × List Reference).1 = [] from rfl,
      decodeTokens_nil]
    exact (List.drop_eq_nil_of_le (by omega)).symm
  | succ k ih =>
    intro i fuel hk hf
    by_cases hlt : i < p.length
    · have hk1 : p.length - i - 1 + 1 = p.length - i := by omega
      have hpos : p.length - (p.length - i) = i := by omega
      obtain ⟨ch, hch, hcase⟩ := choiceAt_spec p dict (p.length - i - 1)
      rw [hk1] at hch
      rcases hcase with ⟨L, hL1, hL250, hLk, hcheq, hcost⟩ |
        ⟨m, hm, hcheq, hcost⟩
      · rw [hk1] at hLk
        rw [hk1, hpos] at hcheq
        subst hcheq
        have hemit := emitFrom_lit hlt hch
        have hmax : max 1 L = L := by omega
        rw [hmax, ite_self] at hemit
        match fuel with
        | 0 =>
          exfalso
          rw [hemit] at hf
          simp at hf
        | f + 1 =>
          rw [hemit]
          dsimp only
          rw [decodeTokens_lit_tok dict (maxDictLen dict) f
            ((emitFrom p dict (i + L)).1) hL250
            (by simp only [List.length_take, List.length_drop]; omega)
            (fun u hu => hunits u (mem_slice_mem hu))]
          have hf' : (emitFrom p dict (i + L)).1.length ≤ f := by
            rw [hemit] at hf
            simp only [List.length_append, List.length_cons] at hf
            omega
          rw [ih (i + L) f (by omega) hf']
          rw [show p.drop (i + L) = (p.drop i).drop L from by
            rw [List.drop_drop]]
          exact List.take_append_drop L (p.drop i)
      · rw [hk1, hpos] at hm
        subst hcheq
        have hspec := matchesAt_spec hm
        have hemit := emitFrom_ref hlt hch
        have hmax : max 1 m.len = m.len := by omega
        rw [hmax] at hemit
        match fuel with
        | 0 =>
          exfalso
          rw [hemit] at hf
          simp at hf
        | f + 1 =>
          rw [hemit]
          dsimp only
          rw [decodeTokens_ref_tok dict (maxDictLen dict) f
            ((emitFrom p dict (i + m.len)).1) (by omega) (by omega)
            (by omega)]
          have hf' : (emitFrom p dict (i + m.len)).1.length ≤ f := by
            rw [hemit] at hf
            simp only [List.length_append, List.length_cons] at hf
            omega
          rw [ih (i + m.len) f (by omega) hf']
          rw [slices_eq (by omega) (by omega)
            (fun t ht => hspec.2.2.2.2.2.2 t ht)]
          rw [show p.drop (i + m.len) = (p.drop i).drop m.len from by
            rw [List.drop_drop]]
          exact List.take_append_drop m.len (p.drop i)
    · rw [emitFrom_of_ge (by omega)]
      rw [show (([], []) : List Bool × List Reference).1 = [] from rfl,
        decodeTokens_nil]
      exact (List.drop_eq_nil_of_le (by omega)).symm

/-! ## Claim theorems for the compressor -/

theorem compressPayload_eq (p : JStr) (dict : List JStr) :
    compressPayload p dict =
      if 1 + (toBinaryUtf8 p).length ≤ 1 + (emitFrom p dict 0).1.length then
        { method := "standard", payload := p,
          compressed := false :: toBinaryUtf8 p,
          compressedLength := 1 + (toBinaryUtf8 p).length,
          originalLength := (toBinaryUtf8 p).length, references := [] }
      else
        { method := "dictionary", payload := p,
          compressed := true :: (emitFrom p dict 0).1,
          compressedLength := 1 + (emitFrom p dict 0).1.length,
          originalLength := (toBinaryUtf8 p).length,
          references := (emitFrom p dict 0).2 } := rfl

theorem decodeBitstream_cons (dict : List JStr) (mode : Bool)
    (rest : List Bool) :
    decodeBitstream dict (mode :: rest) =
      if mode then decodeTokens dict (maxDictLen dict) rest.length rest
      else decodeUtf8Run rest.length rest := rfl

/-- **C1.** For every non-empty payload string (any list of UTF-16 code
units) and every dictionary, the bitstream returned by `compressPayload`
(mode flag, then either the raw UTF-8 bits in mode 0 or the
literal/reference token stream in mode 1) is decoded by the mode-aware
reference decoder — reading fields of widths `width(250)`, `width(|D|)`,
`width(|D[d]|)`, `width(M_global)` — back to exactly the original
payload. -/
theorem c1_compress_roundtrip (p : JStr) (dict : List JStr)
    (hne : p ≠ []) (hunits : ∀ u ∈ p, u < 65536) :
    decodeBitstream dict (compressPayload p dict).compressed = p := by
  rw [compressPayload_eq]
  split
  · show decodeBitstream dict (false :: toBinaryUtf8 p) = p
    rw [decodeBitstream_cons, if_neg (by simp)]
    exact decodeUtf8Run_toBinaryUtf8 (toBinaryUtf8 p).length p hunits
      (toBinaryUtf8_length_ge p)
  · show decodeBitstream dict (true :: (emitFrom p dict 0).1) = p
    rw [decodeBitstream_cons, if_pos rfl]
    have hdec := decodeTokens_emitFrom p dict hunits p.length 0
      ((emitFrom p dict 0).1.length) (by omega) le_rfl
    simpa using hdec

/-- **C2.** `compressPayload` emits mode "0" (`method = "standard"`)
exactly when the dictionary-mode size `1 + |tokens|` is `≥` the
uncompressed size `1 + 8·byte_length(payload)`; consequently the chosen
mode's total bit length is the minimum of the two and the leading mode
bit agrees with the choice. -/
theorem c2_mode_fallback_minimality (p : JStr) (dict : List JStr)
    (hunits : ∀ u ∈ p, u < 65536) :
    ((compressPayload p dict).method = "standard" ↔
      1 + 8 * getUtf8ByteLength p ≤ 1 + (emitFrom p dict 0).1.length) ∧
    (compressPayload p dict).compressedLength =
      min (1 + 8 * getUtf8ByteLength p) (1 + (emitFrom p dict 0).1.length) ∧
    (compressPayload p dict).compressed.length =
      (compressPayload p dict).compressedLength ∧
    (compressPayload p dict).compressed.head? =
      some (decide (1 + (emitFrom p dict 0).1.length <
        1 + 8 * getUtf8ByteLength p)) := by
  have hstd : (toBinaryUtf8 p).length = 8 * getUtf8ByteLength p :=
    toBinaryUtf8_length p.length p le_rfl hunits
  rw [compressPayload_eq]
  split
  · rename_i hif
    rw [hstd] at hif
    refine ⟨⟨fun _ => hif, fun _ => rfl⟩, ?_, ?_, ?_⟩
    · show 1 + (toBinaryUtf8 p).length = _
      rw [hstd]
      omega
    · simp [hstd]
      omega
    · simp only [List.head?_cons, Option.some.injEq]
      rw [show (decide (1 + (emitFrom p dict 0).1.length <
        1 + 8 * getUtf8ByteLength p)) = false from by simp; omega]
  · rename_i hif
    rw [hstd] at hif
    push_neg at hif
    constructor
    · constructor
      · intro hme
        exact absurd hme (by simp)
      · intro hle
        omega
    · refine ⟨?_, ?_, ?_⟩
      · show 1 + (emitFrom p dict 0).1.length = _
        omega
      · simp
        omega
      · simp only [List.head?_cons, Option.some.injEq]
        rw [show (decide (1 + (emitFrom p dict 0).1.length <
          1 + 8 * getUtf8ByteLength p)) = true from by simp; omega]

/-- **C3.** The dictionary-mode token stream computed by `compressPayload`
(`dictBinary`, the compressed stream without the leading mode flag) has
length `dp[0]`, and `dp[0]` is the least summed token cost over all
decompositions of the payload into literals of length `1..250` and
references drawn from the match index. -/
theorem c3_token_stream_optimal (p : JStr) (dict : List JStr)
    (hunits : ∀ u ∈ p, u < 65536) :
    (emitFrom p dict 0).1.length = dpCost p dict p.length ∧
    ((compressPayload p dict).method = "dictionary" →
      (compressPayload p dict).compressed = true :: (emitFrom p dict 0).1) ∧
    IsLeast {c | ∃ ts, ValidFrom p dict 0 ts ∧ costFrom p dict 0 ts = c}
      (emitFrom p dict 0).1.length := by
  have hlen := emitFrom_length p dict hunits p.length 0 (by omega)
  rw [Nat.sub_zero] at hlen
  refine ⟨hlen, ?_, ?_, ?_⟩
  · rw [compressPayload_eq]
    split
    · intro hcontra
      exact absurd hcontra (by simp)
    · intro _
      rfl
  · obtain ⟨ts, hv, hc⟩ :=
      exists_costFrom_eq_dpCost p dict p.length 0 (by omega) (by omega)
    rw [Nat.sub_zero] at hc
    exact ⟨ts, hv, hc.trans hlen.symm⟩
  · rintro c ⟨ts, hv, rfl⟩
    rw [hlen]
    have hle := dpCost_le_costFrom p dict ts 0 hv
    rw [Nat.sub_zero] at hle
    exact hle

/-! ## Comment selector lemmas -/

theorem selClamp (s n : Nat) :
    (if n < s then s % (n + 1) else s) = s % (n + 1) := by
  split
  · rfl
  · rw [Nat.mod_eq_of_lt (by omega)]

theorem walkChain_succ (flat : List CommentData) (fuel : Nat)
    (c : CommentData) (v : List JStr) :
    walkChain flat (fuel + 1) c v =
      if c.id ∈ v then []
      else if c.parent_id = c.link_id then [projEntry c]
      else
        match resolveParent flat c.parent_id with
        | none => [projEntry c]
        | some parent =>
          if parent = c then [projEntry c]
          else walkChain flat fuel parent (c.id :: v) ++ [projEntry c] := rfl

theorem mapGet_mem {flat : List CommentData} {k : JStr} {x : CommentData}
    (h : mapGet flat k = some x) : x ∈ flat := by
  unfold mapGet at h
  have := List.mem_of_find?_eq_some h
  rwa [List.mem_reverse] at this

theorem resolveParent_mem {flat : List CommentData} {pid : JStr}
    {x : CommentData} (h : resolveParent flat pid = some x) : x ∈ flat := by
  unfold resolveParent at h
  cases hm : mapGet flat pid with
  | some y =>
    rw [hm] at h
    dsimp only at h
    injection h with h
    subst h
    exact mapGet_mem hm
  | none =>
    rw [hm] at h
    dsimp only at h
    by_cases hu : 95 ∈ pid
    · rw [if_pos hu] at h
      exact mapGet_mem h
    · rw [if_neg hu] at h
      exact absurd h (by simp)

theorem visited_measure_lt (flat : List CommentData) {c : CommentData}
    {v : List JStr} (hc : c ∈ flat) (hv : c.id ∉ v) :
    ((flat.map (fun x => x.id)).toFinset \ (c.id :: v).toFinset).card <
      ((flat.map (fun x => x.id)).toFinset \ v.toFinset).card := by
  have hmem : c.id ∈ (flat.map (fun x => x.id)).toFinset \ v.toFinset := by
    rw [Finset.mem_sdiff]
    constructor
    · rw [List.mem_toFinset, List.mem_map]
      exact ⟨c, hc, rfl⟩
    · rw [List.mem_toFinset]
      exact hv
  rw [List.toFinset_cons, Finset.sdiff_insert,
    Finset.card_erase_of_mem hmem]
  have hpos : 0 < ((flat.map (fun x => x.id)).toFinset \ v.toFinset).card :=
    Finset.card_pos.2 ⟨c.id, hmem⟩
  omega

theorem walkChain_fuel_irrel (flat : List CommentData) :
    ∀ f1 f2 (current : CommentData) (visited : List JStr),
      current ∈ flat →
      ((flat.map (fun x => x.id)).toFinset \ visited.toFinset).card < f1 →
      ((flat.map (fun x => x.id)).toFinset \ visited.toFinset).card < f2 →
      walkChain flat f1 current visited =
        walkChain flat f2 current visited := by
  intro f1
  induction f1 with
  | zero => intro f2 c v _ h1 _; omega
  | succ f ih =>
    intro f2 c v hc h1 h2
    match f2 with
    | f2 + 1 =>
      rw [walkChain_succ, walkChain_succ]
      by_cases hv : c.id ∈ v
      · rw [if_pos hv, if_pos hv]
      · rw [if_neg hv, if_neg hv]
        by_cases hp : c.parent_id = c.link_id
        · rw [if_pos hp, if_pos hp]
        · rw [if_neg hp, if_neg hp]
          cases hres : resolveParent flat c.parent_id with
          | none => rfl
          | some parent =>
            dsimp only
            by_cases hpc : parent = c
            · rw [if_pos hpc, if_pos hpc]
            · rw [if_neg hpc, if_neg hpc]
              have hmes := visited_measure_lt flat hc hv
              rw [ih f2 parent (c.id :: v) (resolveParent_mem hres)
                (by omega) (by omega)]

theorem walkChain_length_le (flat : List CommentData) :
    ∀ fuel (current : CommentData) (visited : List JStr),
      current ∈ flat →
      (walkChain flat fuel current visited).length ≤
        ((flat.map (fun x => x.id)).toFinset \ visited.toFinset).card := by
  intro fuel
  induction fuel with
  | zero => intro c v _; simp [walkChain]
  | succ f ih =>
    intro c v hc
    rw [walkChain_succ]
    by_cases hv : c.id ∈ v
    · rw [if_pos hv]; simp
    · have hmem : c.id ∈ (flat.map (fun x => x.id)).toFinset \ v.toFinset := by
        rw [Finset.mem_sdiff]
        refine ⟨?_, by rw [List.mem_toFinset]; exact hv⟩
        rw [List.mem_toFinset, List.mem_map]
        exact ⟨c, hc, rfl⟩
      have hpos : 0 <
          ((flat.map (fun x => x.id)).toFinset \ v.toFinset).card :=
        Finset.card_pos.2 ⟨c.id, hmem⟩
      rw [if_neg hv]
      by_cases hp : c.parent_id = c.link_id
      · rw [if_pos hp]; simpa using hpos
      · rw [if_neg hp]
        cases hres : resolveParent flat c.parent_id with
        | none => simpa using hpos
        | some parent =>
          dsimp only
          by_cases hpc : parent = c
          · rw [if_pos hpc]; simpa using hpos
          · rw [if_neg hpc]
            have hrec := ih parent (c.id :: v) (resolveParent_mem hres)
            have hmes := visited_measure_lt flat hc hv
            simp only [List.length_append, List.length_cons, List.length_nil]
            omega

/-! ## Claim theorems for the comment selector -/

/-- **C4 (counterexample).** With an empty comment forest the selector
consumes `getBitWidth 0 = 1` bit, not `⌈log₂(0+1)⌉ = 0` bits as the claim
states: the claimed width is wrong at `|F| = 0`. -/
theorem c4_comment_selector_width_refuted :
    (embedInCommentSelection [true]
      { id := "", title := "", author := "", permalink := "", selftext := [],
        search_results := [], comments := [] }).1.bitsCount = 1 ∧
    (flattenForest
      ({ id := "", title := "", author := "", permalink := "", selftext := [],
         search_results := [], comments := [] } : Post).comments).length = 0 ∧
    ¬((embedInCommentSelection [true]
      { id := "", title := "", author := "", permalink := "", selftext := [],
        search_results := [], comments := [] }).1.bitsCount =
      Nat.clog 2 ((flattenForest
        ({ id := "", title := "", author := "", permalink := "",
           selftext := [], search_results := [],
           comments := [] } : Post).comments).length + 1)) := by
  refine ⟨rfl, rfl, ?_⟩
  intro hc
  rw [show (flattenForest
      ({ id := "", title := "", author := "", permalink := "", selftext := [],
         search_results := [], comments := [] } : Post).comments).length = 0
    from rfl, Nat.clog_one_right 2] at hc
  exact absurd hc (by decide)

/-- **C4 (amended).** The comment selector consumes exactly
`getBitWidth |F|` bits — which equals `⌈log₂(|F|+1)⌉` for every non-empty
flattened list, and is 1 (not 0) when `|F| = 0` — interprets them
big-endian, reduces the value modulo `|F|+1` (a no-op when it is already
`≤ |F|`), targets the post exactly when the reduced index `s` is 0, and
otherwise targets the `s`-th comment of `F` (1-based): the emitted chain
is the ancestor walk started at `F[s-1]`. -/
theorem c4_comment_selector_width_amended (bits : List Bool) (post : Post) :
    (embedInCommentSelection bits post).1.bitsCount =
      getBitWidth (flattenForest post.comments).length ∧
    (1 ≤ (flattenForest post.comments).length →
      getBitWidth (flattenForest post.comments).length =
        Nat.clog 2 ((flattenForest post.comments).length + 1)) ∧
    (embedInCommentSelection bits post).1.bitsUsed.length =
      (embedInCommentSelection bits post).1.bitsCount ∧
    (embedInCommentSelection bits post).1.targetType =
      (if bitsToNat (embedInCommentSelection bits post).1.bitsUsed %
          ((flattenForest post.comments).length + 1) = 0
       then "post" else "comment") ∧
    (0 < bitsToNat (embedInCommentSelection bits post).1.bitsUsed %
        ((flattenForest post.comments).length + 1) →
      0 < (flattenForest post.comments).length →
      (embedInCommentSelection bits post).1.pickedCommentChain =
        walkChain (flattenForest post.comments)
          ((flattenForest post.comments).length + 1)
          ((flattenForest post.comments).getD
            (bitsToNat (embedInCommentSelection bits post).1.bitsUsed %
              ((flattenForest post.comments).length + 1) - 1) default)
          []) := by
  refine ⟨rfl, fun h => getBitWidth_eq_clog h, ?_, ?_, ?_⟩
  · exact takeBits_used_length bits
      (getBitWidth (flattenForest post.comments).length)
  · show (if (if (flattenForest post.comments).length <
        bitsToNat (takeBits bits
          (getBitWidth (flattenForest post.comments).length)).1
      then bitsToNat (takeBits bits
          (getBitWidth (flattenForest post.comments).length)).1 %
          ((flattenForest post.comments).length + 1)
      else bitsToNat (takeBits bits
          (getBitWidth (flattenForest post.comments).length)).1) = 0
     then "post" else "comment") = _
    rw [selClamp]
    rfl
  · intro hs hn
    have hs' : 0 < bitsToNat (takeBits bits
        (getBitWidth (flattenForest post.comments).length)).1 %
        ((flattenForest post.comments).length + 1) := hs
    show (if 0 < (if (flattenForest post.comments).length <
          bitsToNat (takeBits bits
            (getBitWidth (flattenForest post.comments).length)).1
        then bitsToNat (takeBits bits
            (getBitWidth (flattenForest post.comments).length)).1 %
            ((flattenForest post.comments).length + 1)
        else bitsToNat (takeBits bits
            (getBitWidth (flattenForest post.comments).length)).1) ∧
        0 < (flattenForest post.comments).length
      then walkChain (flattenForest post.comments)
          ((flattenForest post.comments).length + 1)
          ((flattenForest post.comments).getD
            ((if (flattenForest post.comments).length <
                bitsToNat (takeBits bits
                  (getBitWidth (flattenForest post.comments).length)).1
              then bitsToNat (takeBits bits
                  (getBitWidth (flattenForest post.comments).length)).1 %
                  ((flattenForest post.comments).length + 1)
              else bitsToNat (takeBits bits
                  (getBitWidth
                    (flattenForest post.comments).length)).1) - 1)
            default) []
      else []) = _
    rw [selClamp]
    rw [if_pos (And.intro hs' hn)]
    rfl

/-- **C8.** If a comment's `parent_id` has no direct match among the
flattened ids but contains an underscore and the suffix after its last
underscore matches a comment, the tolerant lookup resolves to that
comment, and the ancestor-chain walk continues through it: the chain is
the resolved parent's root-first chain followed by the current comment. -/
theorem c8_parent_suffix_resolution (flat : List CommentData) (pid : JStr)
    (a : CommentData) (h1 : mapGet flat pid = none) (h2 : 95 ∈ pid)
    (h3 : mapGet flat (lastSeg pid) = some a) :
    resolveParent flat pid = some a ∧
    ∀ fuel (b : CommentData) (visited : List JStr), b.parent_id = pid →
      b.id ∉ visited → pid ≠ b.link_id → a ≠ b →
      walkChain flat (fuel + 1) b visited =
        walkChain flat fuel a (b.id :: visited) ++ [projEntry b] := by
  have hres : resolveParent flat pid = some a := by
    unfold resolveParent
    rw [h1]
    dsimp only
    rw [if_pos h2, h3]
  refine ⟨hres, ?_⟩
  intro fuel b visited hb hbv hroot hab
  rw [walkChain_succ, if_neg hbv,
    if_neg (show ¬b.parent_id = b.link_id from by rw [hb]; exact hroot),
    hb, hres]
  dsimp only
  rw [if_neg hab]

/-- **C9.** The ancestor-chain walk terminates on every forest, cyclic
parent-ids included: its result is independent of any fuel beyond the
number of flattened comments (the visited-id set makes each id count at
most once), and the emitted chain never exceeds `|F|` entries. -/
theorem c9_walk_terminates_bounded (post : Post) (bits : List Bool) :
    ((embedInCommentSelection bits post).1.pickedCommentChain).length ≤
      (flattenForest post.comments).length ∧
    (∀ f1 f2 (current : CommentData) (visited : List JStr),
      current ∈ flattenForest post.comments →
      (flattenForest post.comments).length < f1 →
      (flattenForest post.comments).length < f2 →
      walkChain (flattenForest post.comments) f1 current visited =
        walkChain (flattenForest post.comments) f2 current visited) := by
  constructor
  · show (if _ then walkChain _ _ _ _ else []).length ≤ _
    rw [selClamp]
    split
    · rename_i hcond
      set flat := flattenForest post.comments with hflat
      set s := bitsToNat (takeBits bits (getBitWidth flat.length)).1 with hs
      have hmod := Nat.mod_lt s (y := flat.length + 1) (by omega)
      have hidx : s % (flat.length + 1) - 1 < flat.length := by omega
      have hmem : flat.getD (s % (flat.length + 1) - 1) default ∈ flat := by
        rw [List.getD_eq_getElem flat default hidx]
        exact List.getElem_mem hidx
      refine le_trans (walkChain_length_le flat _ _ _ hmem) ?_
      refine le_trans (Finset.card_le_card Finset.sdiff_subset) ?_
      refine le_trans (List.toFinset_card_le _) ?_
      simp
    · simp
  · intro f1 f2 current visited hmem h1 h2
    have hcard : ((flattenForest post.comments).map
        (fun x => x.id)).toFinset.card ≤
        (flattenForest post.comments).length := by
      refine le_trans (List.toFinset_card_le _) ?_
      simp
    refine walkChain_fuel_irrel _ f1 f2 current visited hmem ?_ ?_
    · refine lt_of_le_of_lt (le_trans (Finset.card_le_card
        Finset.sdiff_subset) hcard) h1
    · refine lt_of_le_of_lt (le_trans (Finset.card_le_card
        Finset.sdiff_subset) hcard) h2

/-! ## Angle selector lemmas -/

theorem idx_mod (v r : Nat) (h : 0 < r) :
    (if r ≤ v then v % r else v) = v % r := by
  split
  · rfl
  · rw [Nat.mod_eq_of_lt (by omega)]

theorem angleGo_zero {α : Type} [Inhabited α] (avail : List α)
    (bits : List Bool) :
    angleGo avail bits 0 =
      { bitsUsed := [], bitsCount := 0, remainingBits := bits,
        selectedAngles := [], unselectedAngles := avail,
        insufficientBits := false } := rfl

theorem angleGo_succ {α : Type} [Inhabited α] (avail : List α)
    (bits : List Bool) (quota : Nat) :
    angleGo avail bits (quota + 1) =
      if avail.isEmpty then
        { bitsUsed := [], bitsCount := 0, remainingBits := bits,
          selectedAngles := [], unselectedAngles := avail,
          insufficientBits := false }
      else
        let range := avail.length
        let bitsNeeded := ceilLog2 range
        let t := takeBits bits bitsNeeded
        let v := bitsToNat t.1
        let idx := if range ≤ v then v % range else v
        let rest := angleGo (avail.eraseIdx idx) t.2.1 quota
        { bitsUsed := t.1 ++ rest.bitsUsed
          bitsCount := bitsNeeded + rest.bitsCount
          remainingBits := rest.remainingBits
          selectedAngles := avail.getD idx default :: rest.selectedAngles
          unselectedAngles := rest.unselectedAngles
          insufficientBits := t.2.2 || rest.insufficientBits } := rfl

theorem angleGo_stats {α : Type} [Inhabited α] :
    ∀ (T : Nat) (avail : List α) (bits : List Bool),
      (angleGo avail bits T).bitsCount =
        ∑ k ∈ Finset.range (min T avail.length),
          Nat.clog 2 (avail.length - k) ∧
      (angleGo avail bits T).bitsUsed.length =
        (angleGo avail bits T).bitsCount ∧
      (angleGo avail bits T).selectedAngles.length = min T avail.length := by
  intro T
  induction T with
  | zero =>
    intro avail bits
    rw [angleGo_zero]
    simp
  | succ T ih =>
    intro avail bits
    match avail with
    | [] =>
      rw [angleGo_succ]
      simp
    | a :: rest =>
      rw [angleGo_succ, if_neg (by simp)]
      dsimp only
      set P := (a :: rest).length with hP
      have hPpos : 0 < P := by rw [hP]; simp
      set v := bitsToNat (takeBits bits (ceilLog2 P)).1 with hv
      have hidx : (if P ≤ v then v % P else v) < P := by
        split
        · exact Nat.mod_lt _ hPpos
        · omega
      have herase : ((a :: rest).eraseIdx
          (if P ≤ v then v % P else v)).length = P - 1 := by
        rw [List.length_eraseIdx]
        rw [← hP]
        simp [hidx]
      obtain ⟨ihc, ihu, ihs⟩ := ih ((a :: rest).eraseIdx
        (if P ≤ v then v % P else v)) (takeBits bits (ceilLog2 P)).2.1
      rw [herase] at ihc ihs
      refine ⟨?_, ?_, ?_⟩
      · rw [ihc, ceilLog2_eq_clog]
        rw [show min (T + 1) P = min T (P - 1) + 1 from by omega,
          Finset.sum_range_succ']
        have hcong : ∑ i ∈ Finset.range (min T (P - 1)),
            Nat.clog 2 (P - (i + 1)) =
            ∑ i ∈ Finset.range (min T (P - 1)),
              Nat.clog 2 (P - 1 - i) :=
          Finset.sum_congr rfl (fun i _ => by congr 1; omega)
        rw [hcong]
        simp only [Nat.sub_zero]
        omega
      · simp only [List.length_append, takeBits_used_length]
        omega
      · simp only [List.length_cons, ihs]
        omega

/-- **C5.** At every step of the angle selector the pool of size `r ≥ 1`
costs exactly `⌈log₂ r⌉` popped bits (zero when `r = 1`), the popped value
reduced modulo `r` indexes the removed angle, and a call with target
`T > 0` on a pool of size `P` consumes
`∑_{k ∈ [0, min(T,P))} ⌈log₂(P−k)⌉` bits in total. -/
theorem c5_angle_selector_bit_consumption {α : Type} [Inhabited α]
    (bits : List Bool) (nestedAngles : List (List α)) (T : Nat)
    (hT : 0 < T) :
    (embedInAngleSelection bits nestedAngles T).bitsCount =
      ∑ k ∈ Finset.range (min T (nestedAngles.flatMap id).length),
        Nat.clog 2 ((nestedAngles.flatMap id).length - k) ∧
    (embedInAngleSelection bits nestedAngles T).bitsUsed.length =
      (embedInAngleSelection bits nestedAngles T).bitsCount ∧
    (0 < (nestedAngles.flatMap id).length →
      (embedInAngleSelection bits nestedAngles T).selectedAngles.headD
          default =
        (nestedAngles.flatMap id).getD
          (bitsToNat (takeBits bits
            (Nat.clog 2 (nestedAngles.flatMap id).length)).1 %
            (nestedAngles.flatMap id).length) default) := by
  obtain ⟨h1, h2, _⟩ := angleGo_stats T (nestedAngles.flatMap id) bits
  refine ⟨h1, h2, ?_⟩
  intro hP
  match hTm : T, hT with
  | T' + 1, _ =>
    unfold embedInAngleSelection
    rw [angleGo_succ,
      if_neg (by cases hmt : nestedAngles.flatMap id <;> simp_all)]
    dsimp only
    rw [idx_mod _ _ hP, ceilLog2_eq_clog]
    rfl

/-- **C6 (code evaluation).** With target count 0 (and `null` compares
identically to 0 in the loop guard) and a non-empty pool and non-empty
bitstream, the selector selects nothing, consumes nothing, and leaves the
pool and bitstream untouched — it does not fill the pool as specified. -/
theorem c6_angle_target_zero_selects_nothing :
    (embedInAngleSelection [true] [[(0 : Nat)]] 0).selectedAngles = [] ∧
    (embedInAngleSelection [true] [[(0 : Nat)]] 0).bitsCount = 0 ∧
    (embedInAngleSelection [true] [[(0 : Nat)]] 0).unselectedAngles = [0] ∧
    (embedInAngleSelection [true] [[(0 : Nat)]] 0).remainingBits = [true] :=
  ⟨rfl, rfl, rfl, rfl⟩

/-! ## Pipeline lemmas -/

theorem takeBits_not_insufficient {bits : List Bool} {k : Nat}
    (h : (takeBits bits k).2.2 = false) :
    takeBits bits k = (bits.take k, bits.drop k, false) := by
  by_cases h0 : k = 0
  · subst h0
    simp [takeBits]
  · by_cases hle : k ≤ bits.length
    · rw [takeBits_of_le hle]
    · rw [takeBits_of_lt (by omega)] at h
      simp at h

theorem angleGo_prefix {α : Type} [Inhabited α] :
    ∀ (T : Nat) (avail : List α) (bits : List Bool),
      (angleGo avail bits T).insufficientBits = false →
      (angleGo avail bits T).bitsUsed =
        bits.take (angleGo avail bits T).bitsCount ∧
      (angleGo avail bits T).remainingBits =
        bits.drop (angleGo avail bits T).bitsCount := by
  intro T
  induction T with
  | zero =>
    intro avail bits _
    rw [angleGo_zero]
    simp
  | succ T ih =>
    intro avail bits hins
    match avail with
    | [] =>
      rw [angleGo_succ]
      simp
    | a :: rest =>
      rw [angleGo_succ, if_neg (by simp)] at hins ⊢
      dsimp only at hins ⊢
      rw [Bool.or_eq_false_iff] at hins
      obtain ⟨hi1, hi2⟩ := hins
      have ht := takeBits_not_insufficient hi1
      rw [ht] at hi2 ⊢
      dsimp only at hi2 ⊢
      obtain ⟨hu, hr⟩ := ih _ _ hi2
      rw [hu, hr]
      constructor
      · exact (List.take_add _ _ _).symm
      · rw [List.drop_drop]

/-- **C7.** `take_bits` is total: for `k > 0` it returns the first `k`
bits with the rest when the buffer is long enough, and otherwise the
zero-padded buffer (exactly `k` bits), an empty remainder and the
`insufficient` flag; MAIN surfaces the flag of either selector as a
warning, not an error. -/
theorem c7_takebits_total_and_warned (buf : List Bool) (k : Nat)
    (hk : 0 < k) (post : Post) (nested : List (List Angle)) (payload : JStr)
    (target : Nat) :
    (k ≤ buf.length → takeBits buf k = (buf.take k, buf.drop k, false)) ∧
    (buf.length < k →
      takeBits buf k =
        (buf ++ List.replicate (k - buf.length) false, [], true) ∧
      (takeBits buf k).1.length = k) ∧
    ((processItem post nested payload target).commentEmbedding.insufficientBits
        = true →
      "Padding used in Comment Selection." ∈
        (processItem post nested payload target).warnings) ∧
    ((processItem post nested payload target).angleEmbedding.insufficientBits
        = true →
      "Padding used in Angle Selection." ∈
        (processItem post nested payload target).warnings) := by
  refine ⟨fun h => takeBits_of_le h,
    fun h => ⟨takeBits_of_lt h, takeBits_used_length buf k⟩, ?_, ?_⟩
  · intro h
    unfold processItem at h ⊢
    dsimp only at h ⊢
    rw [h]
    simp
  · intro h
    unfold processItem at h ⊢
    dsimp only at h ⊢
    rw [h]
    simp

/-- **C10.** Each selector's `bitsUsed` has length equal to its reported
`bitsCount`, and when neither selector reports insufficient bits,
`fullEncodedBits` (comment bits ++ angle bits) is exactly the prefix of
`compression.compressed` of length `totalBitsEmbedded`. -/
theorem c10_full_encoded_bits_front (post : Post)
    (nested : List (List Angle)) (payload : JStr) (target : Nat) :
    (processItem post nested payload target).commentEmbedding.bitsUsed.length
      = (processItem post nested payload target).commentEmbedding.bitsCount ∧
    (processItem post nested payload target).angleEmbedding.bitsUsed.length
      = (processItem post nested payload target).angleEmbedding.bitsCount ∧
    ((processItem post nested payload
        target).commentEmbedding.insufficientBits = false →
      (processItem post nested payload target).angleEmbedding.insufficientBits
        = false →
      (processItem post nested payload target).fullEncodedBits =
        (processItem post nested payload target).compression.compressed.take
          (processItem post nested payload target).totalBitsEmbedded) := by
  refine ⟨takeBits_used_length _ _, (angleGo_stats target _ _).2.1, ?_⟩
  intro hc ha
  have hc' : (takeBits
      (compressPayload payload (buildDictionary post)).compressed
      (getBitWidth (flattenForest post.comments).length)).2.2 = false := hc
  have ht := takeBits_not_insufficient hc'
  have ha' : (angleGo (nested.flatMap id)
      (takeBits (compressPayload payload (buildDictionary post)).compressed
        (getBitWidth (flattenForest post.comments).length)).2.1
      target).insufficientBits = false := ha
  rw [ht] at ha'
  obtain ⟨hau, _⟩ := angleGo_prefix target (nested.flatMap id) _ ha'
  show (takeBits (compressPayload payload (buildDictionary post)).compressed
      (getBitWidth (flattenForest post.comments).length)).1 ++
    (angleGo (nested.flatMap id)
      (takeBits (compressPayload payload (buildDictionary post)).compressed
        (getBitWidth (flattenForest post.comments).length)).2.1
      target).bitsUsed = _
  rw [ht]
  dsimp only
  dsimp only at hau
  rw [hau]
  have htotal : (processItem post nested payload target).totalBitsEmbedded =
      getBitWidth (flattenForest post.comments).length +
        (angleGo (nested.flatMap id)
          ((compressPayload payload (buildDictionary post)).compressed.drop
            (getBitWidth (flattenForest post.comments).length))
          target).bitsCount := by
    show getBitWidth (flattenForest post.comments).length +
        (angleGo (nested.flatMap id)
          (takeBits
            (compressPayload payload (buildDictionary post)).compressed
            (getBitWidth (flattenForest post.comments).length)).2.1
          target).bitsCount = _
    rw [ht]
  have hcomp :
      (processItem post nested payload target).compression.compressed =
        (compressPayload payload (buildDictionary post)).compressed := rfl
  rw [htotal, hcomp]
  exact (List.take_add _ _ _).symm

/-! ## Witnesses: the claim theorems at concrete inputs -/

/-- C1 at payload `[65]` and the empty dictionary. -/
theorem c1_compress_roundtrip_witness :
    ([65] : JStr) ≠ [] ∧ (∀ u ∈ ([65] : JStr), u < 65536) ∧
    decodeBitstream [] (compressPayload [65] []).compressed = [65] :=
  ⟨by decide, by decide, c1_compress_roundtrip [65] [] (by decide) (by decide)⟩

/-- C2 at payload `[65]` and the empty dictionary. -/
theorem c2_mode_fallback_minimality_witness :
    (∀ u ∈ ([65] : JStr), u < 65536) ∧
    (((compressPayload [65] []).method = "standard" ↔
        1 + 8 * getUtf8ByteLength [65] ≤ 1 + (emitFrom [65] [] 0).1.length) ∧
      (compressPayload [65] []).compressedLength =
        min (1 + 8 * getUtf8ByteLength [65])
          (1 + (emitFrom [65] [] 0).1.length) ∧
      (compressPayload [65] []).compressed.length =
        (compressPayload [65] []).compressedLength ∧
      (compressPayload [65] []).compressed.head? =
        some (decide (1 + (emitFrom [65] [] 0).1.length <
          1 + 8 * getUtf8ByteLength [65]))) :=
  ⟨by decide, c2_mode_fallback_minimality [65] [] (by decide)⟩

/-- C3 at payload `[65]` and the empty dictionary. -/
theorem c3_token_stream_optimal_witness :
    (∀ u ∈ ([65] : JStr), u < 65536) ∧
    ((emitFrom [65] [] 0).1.length = dpCost [65] [] 1 ∧
      ((compressPayload [65] []).method = "dictionary" →
        (compressPayload [65] []).compressed =
          true :: (emitFrom [65] [] 0).1) ∧
      IsLeast {c | ∃ ts, ValidFrom [65] [] 0 ts ∧ costFrom [65] [] 0 ts = c}
        (emitFrom [65] [] 0).1.length) :=
  ⟨by decide, c3_token_stream_optimal [65] [] (by decide)⟩

/-- C4 (amended) at `samplePost` (one comment) and bitstream `[true]`. -/
theorem c4_comment_selector_width_amended_witness :
    1 ≤ (flattenForest samplePost.comments).length ∧
    (embedInCommentSelection [true] samplePost).1.bitsCount =
      getBitWidth (flattenForest samplePost.comments).length ∧
    getBitWidth (flattenForest samplePost.comments).length =
      Nat.clog 2 ((flattenForest samplePost.comments).length + 1) ∧
    (embedInCommentSelection [true] samplePost).1.bitsUsed.length =
      (embedInCommentSelection [true] samplePost).1.bitsCount ∧
    (embedInCommentSelection [true] samplePost).1.targetType =
      (if bitsToNat (embedInCommentSelection [true] samplePost).1.bitsUsed %
          ((flattenForest samplePost.comments).length + 1) = 0
        then "post" else "comment") ∧
    (embedInCommentSelection [true] samplePost).1.pickedCommentChain =
      walkChain (flattenForest samplePost.comments)
        ((flattenForest samplePost.comments).length + 1)
        ((flattenForest samplePost.comments).getD
          (bitsToNat (embedInCommentSelection [true] samplePost).1.bitsUsed %
            ((flattenForest samplePost.comments).length + 1) - 1) default)
        [] :=
  ⟨by decide,
    (c4_comment_selector_width_amended [true] samplePost).1,
    (c4_comment_selector_width_amended [true] samplePost).2.1 (by decide),
    (c4_comment_selector_width_amended [true] samplePost).2.2.1,
    (c4_comment_selector_width_amended [true] samplePost).2.2.2.1,
    (c4_comment_selector_width_amended [true] samplePost).2.2.2.2
      (by decide) (by decide)⟩

/-- C5 at bitstream `[true, false]`, pool `[[7, 8]]` and target 1. -/
theorem c5_angle_selector_bit_consumption_witness :
    0 < 1 ∧
    (embedInAngleSelection [true, false] [[(7 : Nat), 8]] 1).bitsCount =
      ∑ k ∈ Finset.range (min 1 2), Nat.clog 2 (2 - k) ∧
    (embedInAngleSelection [true, false] [[(7 : Nat), 8]] 1).bitsUsed.length =
      (embedInAngleSelection [true, false] [[(7 : Nat), 8]] 1).bitsCount ∧
    (embedInAngleSelection [true, false]
        [[(7 : Nat), 8]] 1).selectedAngles.headD default =
      ([7, 8] : List Nat).getD
        (bitsToNat (takeBits [true, false] (Nat.clog 2 2)).1 % 2) default :=
  ⟨by decide,
    (c5_angle_selector_bit_consumption [true, false] [[7, 8]] 1
      (by decide)).1,
    (c5_angle_selector_bit_consumption [true, false] [[7, 8]] 1
      (by decide)).2.1,
    (c5_angle_selector_bit_consumption [true, false] [[7, 8]] 1
      (by decide)).2.2 (by decide)⟩

/-- C7 at buffer `[true, false]` and `k = 1` (the sufficient branch). -/
theorem c7_takebits_total_and_warned_witness :
    0 < 1 ∧
    takeBits [true, false] 1 =
      (([true, false] : List Bool).take 1, ([true, false] : List Bool).drop 1,
        false) :=
  ⟨by decide,
    (c7_takebits_total_and_warned [true, false] 1 (by decide) emptyPost [] []
        0).1 (by decide)⟩

/-- C8 at the two-comment fixture: `sampleChild.parent_id = "t1_a"` only
resolves through the underscore fallback, to `sampleComment`. -/
theorem c8_parent_suffix_resolution_witness :
    mapGet [sampleComment, sampleChild] [116, 49, 95, 97] = none ∧
    95 ∈ ([116, 49, 95, 97] : JStr) ∧
    mapGet [sampleComment, sampleChild] (lastSeg [116, 49, 95, 97]) =
      some sampleComment ∧
    resolveParent [sampleComment, sampleChild] [116, 49, 95, 97] =
      some sampleComment ∧
    walkChain [sampleComment, sampleChild] 2 sampleChild [] =
      walkChain [sampleComment, sampleChild] 1 sampleComment
        (sampleChild.id :: []) ++ [projEntry sampleChild] :=
  ⟨by decide, by decide, by decide,
    (c8_parent_suffix_resolution [sampleComment, sampleChild]
        [116, 49, 95, 97] sampleComment (by decide) (by decide)
        (by decide)).1,
    (c8_parent_suffix_resolution [sampleComment, sampleChild]
        [116, 49, 95, 97] sampleComment (by decide) (by decide)
        (by decide)).2 1 sampleChild [] rfl (by decide) (by decide)
      (by decide)⟩

/-- C9 at `samplePost`: the chain-length bound, and fuel-irrelevance of
the walk at fuels 2 and 3 from `sampleComment`. -/
theorem c9_walk_terminates_bounded_witness :
    ((embedInCommentSelection [true] samplePost).1.pickedCommentChain).length ≤
      (flattenForest samplePost.comments).length ∧
    walkChain (flattenForest samplePost.comments) 2 sampleComment [] =
      walkChain (flattenForest samplePost.comments) 3 sampleComment [] :=
  ⟨(c9_walk_terminates_bounded samplePost [true]).1,
    (c9_walk_terminates_bounded samplePost [true]).2 2 3 sampleComment []
      (by decide) (by decide) (by decide)⟩

/-- C10 at `emptyPost`, no angles, payload `[65]` and target 0: neither
selector reports insufficient bits, so `fullEncodedBits` is the embedded
prefix of the compressed stream. -/
theorem c10_full_encoded_bits_front_witness :
    (processItem emptyPost [] [65] 0).commentEmbedding.bitsUsed.length =
      (processItem emptyPost [] [65] 0).commentEmbedding.bitsCount ∧
    (processItem emptyPost [] [65] 0).angleEmbedding.bitsUsed.length =
      (processItem emptyPost [] [65] 0).angleEmbedding.bitsCount ∧
    (processItem emptyPost [] [65] 0).fullEncodedBits =
      (processItem emptyPost [] [65] 0).compression.compressed.take
        (processItem emptyPost [] [65] 0).totalBitsEmbedded := by
  obtain ⟨h1, h2, h3⟩ := c10_full_encoded_bits_front emptyPost [] [65] 0
  refine ⟨h1, h2, h3 ?_ ?_⟩
  · show (takeBits
        (compressPayload [65] (buildDictionary emptyPost)).compressed
        (getBitWidth (flattenForest emptyPost.comments).length)).2.2 = false
    have hlen : 1 ≤
        (compressPayload [65] (buildDictionary emptyPost)).compressed.length := by
      rw [compressPayload_eq]
      split <;> simp
    have hw : getBitWidth (flattenForest emptyPost.comments).length = 1 := rfl
    rw [hw, takeBits_of_le hlen]
  · show (angleGo (([] : List (List Angle)).flatMap id)
        (takeBits
          (compressPayload [65] (buildDictionary emptyPost)).compressed
          (getBitWidth (flattenForest emptyPost.comments).length)).2.1
        0).insufficientBits = false
    rw [angleGo_zero]
